import Mathlib

/-!
Verification of the options-strategy search core (C++ sources under
`generation_cpp/` and `src/myproject/strategy/cpp/`) against its
natural-language specification.

Shallow embedding conventions:
* C++ `double` is modelled by `ℚ` (exact arithmetic; the float rounding,
  NaN and infinity paths are out of scope — where the code guards against
  non-finite values the guard is vacuous in this model and noted in place).
* C++ `int` is modelled by `ℤ`, `size_t` by `ℕ`.
* Raw-pointer rows are modelled by `List ℚ`; out-of-range reads, which are
  undefined behaviour in the source, are modelled by `List.getD _ _ 0`.
* Functions with early `return std::nullopt` become `Option`-valued
  definitions with the same guard order.
The scoring pipeline (`strategy_scoring.cpp`), which calls `std::log` /
`std::exp`, is modelled over `ℝ` in a later section; everything else is
executable over `ℚ`.
-/

namespace Strategy

/-- Number of intra-life checkpoints (`N_INTRA_DATES` constant = 5). -/
def N_INTRA_DATES : ℕ := 5

/-- Cap on retained breakeven points (`StrategyMetrics::MAX_BREAKEVEN`). -/
def MAX_BREAKEVEN : ℕ := 10

/-- Per-instrument data (`struct OptionData`), restricted to the fields read
by the code paths modelled here (`generation_cpp`). -/
structure OptionData where
  premium : ℚ
  delta : ℚ
  implied_volatility : ℚ
  average_pnl : ℚ
  strike : ℚ
  roll : ℚ
  is_call : Bool
  intra_life_prices : List ℚ
  intra_life_pnl : List ℚ
deriving DecidableEq

instance : Inhabited OptionData :=
  ⟨{ premium := 0, delta := 0, implied_volatility := 0, average_pnl := 0,
     strike := 0, roll := 0, is_call := false,
     intra_life_prices := [], intra_life_pnl := [] }⟩

/-- Result record of `StrategyCalculator::calculate` (`struct StrategyMetrics`),
restricted to the fields the `generation_cpp` variant actually fills. -/
structure StrategyMetrics where
  total_premium : ℚ
  total_delta : ℚ
  total_iv : ℚ
  max_profit : ℚ
  max_loss : ℚ
  max_loss_left : ℚ
  max_loss_right : ℚ
  total_average_pnl : ℚ
  min_profit_price : ℚ
  max_profit_price : ℚ
  profit_zone_width : ℚ
  breakeven_points : List ℚ
  total_roll : ℚ
  call_count : ℤ
  put_count : ℤ
  avg_pnl_levrage : ℚ
  intra_life_prices : List ℚ
  intra_life_pnl : List ℚ
  avg_intra_life_pnl : ℚ
deriving DecidableEq

/-- `StrategyCalculator::filter_useless_sell`: no short leg may have a premium
below `min_premium_sell`. -/
def filter_useless_sell (options : List OptionData) (signs : List ℤ)
    (min_premium_sell : ℚ) : Bool :=
  (options.zip signs).all fun os => !(decide (os.2 < 0) && decide (os.1.premium < min_premium_sell))

/-- One conflicting pair for `filter_same_option_buy_sell`: same call/put flag,
same strike, opposite signs. -/
def legConflict (a b : OptionData × ℤ) : Bool :=
  decide (a.1.is_call = b.1.is_call) && decide (a.1.strike = b.1.strike) && decide (a.2 ≠ b.2)

/-- The `i < j` double loop of `filter_same_option_buy_sell` over the zipped
(option, sign) list: true iff no conflicting pair exists. -/
def pairsNoConflict : List (OptionData × ℤ) → Bool
  | [] => true
  | a :: rest => rest.all (fun b => !legConflict a b) && pairsNoConflict rest

/-- `StrategyCalculator::filter_same_option_buy_sell`. -/
def filter_same_option_buy_sell (options : List OptionData) (signs : List ℤ) : Bool :=
  pairsNoConflict (options.zip signs)

/-- The `total_x += s * opt.x` accumulation pattern of the merged aggregation
loop in `calculate` (lines 96-112 of `strategy_metrics.cpp`). -/
def sumBy (legs : List (OptionData × ℤ)) (f : OptionData → ℚ) : ℚ :=
  legs.foldl (fun acc os => acc + (os.2 : ℚ) * f os.1) 0

/-- `call_count` accumulation of the same loop. -/
def callCountOf (legs : List (OptionData × ℤ)) : ℤ :=
  legs.foldl (fun acc os => acc + (if os.1.is_call then 1 else 0)) 0

/-- `put_count` accumulation of the same loop. -/
def putCountOf (legs : List (OptionData × ℤ)) : ℤ :=
  legs.foldl (fun acc os => acc + (if os.1.is_call then 0 else 1)) 0

/-- `net_short_call` accumulation: `+1` per short call, `-1` per long call. -/
def netShortCallOf (legs : List (OptionData × ℤ)) : ℤ :=
  legs.foldl (fun acc os => acc + (if os.1.is_call then (if os.2 < 0 then 1 else -1) else 0)) 0

/-- `net_short_put` accumulation: `+1` per short put, `-1` per long put. -/
def netShortPutOf (legs : List (OptionData × ℤ)) : ℤ :=
  legs.foldl (fun acc os => acc + (if os.1.is_call then 0 else (if os.2 < 0 then 1 else -1))) 0

/-- `StrategyCalculator::avg_pnl_levrage` (`strategy_calculs.cpp`):
`total_average_pnl / max(|premium|, 0.0005)`. -/
def avg_pnl_levrage (total_average_pnl premium : ℚ) : ℚ :=
  total_average_pnl / max |premium| (1 / 2000)

/-- Total P&L accumulation of `calculate` (lines 138-151): the first leg
assigns `total_pnl[j] = s0 * row0[j]`, each further leg adds `s * row[j]`.
`len` is the caller's `pnl_length`. The `[]` branch is unreachable in
`calculate` (guarded by `n_options == 0`). -/
def totalPnlCurve (legs : List (ℤ × List ℚ)) (len : ℕ) : List ℚ :=
  match legs with
  | [] => List.replicate len 0
  | l0 :: rest =>
      rest.foldl
        (fun acc l => (List.range len).map (fun j => acc.getD j 0 + (l.1 : ℚ) * l.2.getD j 0))
        ((List.range len).map (fun j => (l0.1 : ℚ) * l0.2.getD j 0))

/-- Mutable state of the single fused pass over the grid in `calculate`
(lines 155-218): loss extrema, global extrema, breakevens, profit zone,
and the previous grid point (the source keeps `prev_pnl` and reads
`prices[i-1]`; we carry `prev_price` explicitly). -/
structure ScanState where
  max_loss_left : ℚ
  max_loss_right : ℚ
  max_profit : ℚ
  max_loss : ℚ
  breakevens : List ℚ
  min_profit_price : ℚ
  max_profit_price : ℚ
  found_profit : Bool
  prev_pnl : ℚ
  prev_price : ℚ
deriving DecidableEq

/-- Block "Track global min/max" of the fused pass. -/
def trackExtrema (st : ScanState) (point : ℚ × ℚ) : ScanState :=
  { st with
    max_profit := if point.2 > st.max_profit then point.2 else st.max_profit
    max_loss := if point.2 < st.max_loss then point.2 else st.max_loss }

/-- Block "Breakeven: sign change between i-1 and i" of the fused pass. -/
def trackBreakeven (st : ScanState) (point : ℚ × ℚ) : ScanState :=
  if st.prev_pnl * point.2 < 0 then
    (if st.breakevens.length < MAX_BREAKEVEN then
      { st with breakevens :=
          st.breakevens ++
            [st.prev_price +
              (point.1 - st.prev_price) * (-st.prev_pnl / (point.2 - st.prev_pnl))] }
    else st)
  else st

/-- The `prev_pnl = pnl` bookkeeping (and the implicit `prices[i-1]` read,
carried here as `prev_price`). -/
def trackPrev (st : ScanState) (point : ℚ × ℚ) : ScanState :=
  { st with prev_pnl := point.2, prev_price := point.1 }

/-- Block "Profit zone tracking" of the fused pass. -/
def trackProfitZone (st : ScanState) (point : ℚ × ℚ) : ScanState :=
  if point.2 > 0 then
    (if !st.found_profit then
      { st with min_profit_price := point.1, max_profit_price := point.1, found_profit := true }
    else if point.1 > st.max_profit_price then { st with max_profit_price := point.1 } else st)
  else st

/-- Region-conditional loss-extremum updates of the "Filtres de perte" block. -/
def trackLossRegion (limit_left limit_right : ℚ) (st : ScanState) (point : ℚ × ℚ) : ScanState :=
  if point.1 < limit_left then
    { st with max_loss_left :=
        if point.2 < st.max_loss_left then point.2 else st.max_loss_left }
  else if point.1 > limit_right then
    { st with max_loss_right :=
        if point.2 < st.max_loss_right then point.2 else st.max_loss_right }
  else st

/-- State updates of one iteration of the fused grid pass of `calculate`
(lines 172-217) at point `(price, pnl)`, in source order: global extrema,
breakeven detection, previous-point bookkeeping, profit-zone tracking,
region-conditional loss extrema. The source skips the breakeven test at
`i = 0`; here that test is vacuously false at the first point because the
state is initialised with `prev_pnl = total_pnl[0]`. -/
def scanStepPure (limit_left limit_right : ℚ) (st : ScanState) (point : ℚ × ℚ) : ScanState :=
  trackLossRegion limit_left limit_right
    (trackProfitZone (trackPrev (trackBreakeven (trackExtrema st point) point) point) point)
    point

/-- One full iteration of the fused grid pass: the state updates of
`scanStepPure` together with the loss-filter rejections of the same loop
body; `none` models the early `return std::nullopt`. The region conditions
(`price < limit_left`, `price > limit_right`) and the per-region tests are
exactly those of the source; the state updates and the rejection tests of a
region are grouped here instead of interleaved, which yields the same result
because the updated state is discarded on rejection. -/
def scanStep (limit_left limit_right max_loss_left_param max_loss_right_param : ℚ)
    (premium_only_left premium_only_right : Bool) (neg_abs_premium : ℚ)
    (st : ScanState) (point : ℚ × ℚ) : Option ScanState :=
  let price := point.1
  let pnl := point.2
  let st' := scanStepPure limit_left limit_right st point
  if price < limit_left then
    if premium_only_left then
      (if pnl < neg_abs_premium then none else some st')
    else
      (if pnl < -max_loss_left_param then none else some st')
  else if price > limit_right then
    if premium_only_right then
      (if pnl < neg_abs_premium then none else some st')
    else
      (if pnl < -max_loss_right_param then none else some st')
  else
    (if pnl < neg_abs_premium then none else some st')

/-- The whole fused grid pass: fold `scanStep` over the `(price, pnl)` pairs,
short-circuiting on rejection. -/
def lossScan (limit_left limit_right max_loss_left_param max_loss_right_param : ℚ)
    (premium_only_left premium_only_right : Bool) (neg_abs_premium : ℚ) :
    List (ℚ × ℚ) → ScanState → Option ScanState
  | [], st => some st
  | p :: rest, st =>
      match scanStep limit_left limit_right max_loss_left_param max_loss_right_param
          premium_only_left premium_only_right neg_abs_premium st p with
      | none => none
      | some st' => lossScan limit_left limit_right max_loss_left_param max_loss_right_param
          premium_only_left premium_only_right neg_abs_premium rest st'

/-- `StrategyCalculator::calculate` of `generation_cpp/strategy_metrics.cpp`
(the pointer-based variant): filters in source order, fused aggregation,
total P&L accumulation, fused loss/breakeven/profit-zone pass, intra-life
aggregates. The caller's `pnl_length` argument always equals
`prices.length` (`g_cache.pnl_length`), so it is taken from `prices` here.
`average_mix` is a parameter of the source function but is never read by its
body; it is kept for signature fidelity. -/
def calculate (options : List OptionData) (signs : List ℤ)
    (pnl_rows : List (List ℚ)) (prices : List ℚ)
    (average_mix max_loss_left_param max_loss_right_param max_premium_params : ℚ)
    (ouvert_gauche ouvert_droite : ℤ)
    (min_premium_sell delta_min delta_max limit_left limit_right : ℚ)
    (premium_only premium_only_left premium_only_right : Bool) :
    Option StrategyMetrics :=
  if options.length = 0 ∨ prices.length = 0 then none
  else if filter_useless_sell options signs min_premium_sell = false then none
  else if filter_same_option_buy_sell options signs = false then none
  else
    let legs := options.zip signs
    let total_premium := sumBy legs (fun o => o.premium)
    let total_delta := sumBy legs (fun o => o.delta)
    let total_average_pnl := sumBy legs (fun o => o.average_pnl)
    let total_roll := sumBy legs (fun o => o.roll)
    let total_iv := sumBy legs (fun o => o.implied_volatility)
    let call_count := callCountOf legs
    let put_count := putCountOf legs
    let net_short_put := netShortPutOf legs
    let net_short_call := netShortCallOf legs
    if net_short_put > ouvert_gauche ∨ net_short_call > ouvert_droite then none
    else if |total_premium| > max_premium_params then none
    else if total_delta < delta_min ∨ total_delta > delta_max then none
    else if total_average_pnl < 0 then none
    else
      let total_pnl := totalPnlCurve (signs.zip pnl_rows) prices.length
      let lvg := avg_pnl_levrage total_average_pnl total_premium
      let abs_premium := |total_premium|
      let st0 : ScanState :=
        { max_loss_left := 0, max_loss_right := 0,
          max_profit := total_pnl.getD 0 0, max_loss := total_pnl.getD 0 0,
          breakevens := [], min_profit_price := 0, max_profit_price := 0,
          found_profit := false, prev_pnl := total_pnl.getD 0 0, prev_price := 0 }
      match lossScan limit_left limit_right max_loss_left_param max_loss_right_param
          premium_only_left premium_only_right (-abs_premium)
          (prices.zip total_pnl) st0 with
      | none => none
      | some st =>
          let profit_zone_width :=
            if st.found_profit then st.max_profit_price - st.min_profit_price else 0
          if premium_only ∧ |st.max_loss| > abs_premium then none
          else
            let intra_prices := (List.range N_INTRA_DATES).map (fun t =>
              legs.foldl (fun acc os => acc + (os.2 : ℚ) * os.1.intra_life_prices.getD t 0) 0)
            let intra_pnl := (List.range N_INTRA_DATES).map (fun t =>
              legs.foldl (fun acc os => acc + (os.2 : ℚ) * os.1.intra_life_pnl.getD t 0) 0)
            some
              { total_premium := total_premium
                total_delta := total_delta
                total_iv := total_iv
                max_profit := st.max_profit
                max_loss := st.max_loss
                max_loss_left := st.max_loss_left
                max_loss_right := st.max_loss_right
                total_average_pnl := total_average_pnl
                min_profit_price := st.min_profit_price
                max_profit_price := st.max_profit_price
                profit_zone_width := profit_zone_width
                breakeven_points := st.breakevens
                total_roll := total_roll
                call_count := call_count
                put_count := put_count
                avg_pnl_levrage := lvg
                intra_life_prices := intra_prices
                intra_life_pnl := intra_pnl
                avg_intra_life_pnl := intra_pnl.sum / (N_INTRA_DATES : ℚ) }

/-! ### Basic lemmas about the total P&L accumulation -/

theorem getD_map_range (f : ℕ → ℚ) (len j : ℕ) (h : j < len) :
    ((List.range len).map f).getD j 0 = f j := by
  simp [List.getD, List.getElem?_map, List.getElem?_range, h]

theorem length_map_range (f : ℕ → ℚ) (len : ℕ) :
    ((List.range len).map f).length = len := by simp

theorem totalPnlCurve_foldl_getD (len j : ℕ) (hj : j < len) :
    ∀ (rest : List (ℤ × List ℚ)) (acc : List ℚ),
      ((rest.foldl
        (fun acc l => (List.range len).map (fun j => acc.getD j 0 + (l.1 : ℚ) * l.2.getD j 0))
        acc).getD j 0)
      = acc.getD j 0 + (rest.map (fun l => (l.1 : ℚ) * l.2.getD j 0)).sum := by
  intro rest
  induction rest with
  | nil => intro acc; simp
  | cons l rest ih =>
      intro acc
      rw [List.foldl_cons, ih, getD_map_range _ _ _ hj, List.map_cons, List.sum_cons, add_assoc]

theorem totalPnlCurve_foldl_length (len : ℕ) :
    ∀ (rest : List (ℤ × List ℚ)) (acc : List ℚ), acc.length = len →
      ((rest.foldl
        (fun acc l => (List.range len).map (fun j => acc.getD j 0 + (l.1 : ℚ) * l.2.getD j 0))
        acc).length) = len := by
  intro rest
  induction rest with
  | nil => intro acc h; simpa using h
  | cons l rest ih => intro acc h; rw [List.foldl_cons]; exact ih _ (by simp)

theorem totalPnlCurve_length (legs : List (ℤ × List ℚ)) (len : ℕ) :
    (totalPnlCurve legs len).length = len := by
  match legs with
  | [] => simp [totalPnlCurve]
  | l0 :: rest => exact totalPnlCurve_foldl_length len rest _ (by simp)

/-- C2: for every candidate with at least one leg and a non-empty price grid,
the total P&L curve accumulated by the evaluator (first leg assigns, further
legs add) equals, at every grid point, the sign-weighted sum of the legs'
P&L rows — the exact dot-product identity. -/
theorem C2_total_pnl_is_dot_product (legs : List (ℤ × List ℚ)) (len j : ℕ)
    (hne : legs ≠ []) (hj : j < len) :
    (totalPnlCurve legs len).getD j 0
      = (legs.map (fun l => (l.1 : ℚ) * l.2.getD j 0)).sum := by
  match legs with
  | [] => exact absurd rfl hne
  | l0 :: rest =>
      rw [totalPnlCurve, totalPnlCurve_foldl_getD len j hj rest _,
        getD_map_range _ _ _ hj, List.map_cons, List.sum_cons]

/-- Witness for C2 at a concrete two-leg candidate on a two-point grid. -/
theorem C2_witness :
    (totalPnlCurve [((2 : ℤ), [(3 : ℚ), 4]), ((-1 : ℤ), [(1 : ℚ), 5])] 2).getD 1 0
      = ([((2 : ℤ), [(3 : ℚ), 4]), ((-1 : ℤ), [(1 : ℚ), 5])].map
          (fun l => (l.1 : ℚ) * l.2.getD 1 0)).sum :=
  C2_total_pnl_is_dot_product _ 2 1 (by decide) (by decide)

/-! ### Characterisation of the fused grid pass on accepted candidates

When `calculate` accepts a candidate, the loss filters never fired, so the
fused pass is equivalent to a plain fold of `scanStepPure`; the lemmas below
recover each metric as an explicit fold over the `(price, pnl)` pairs. -/

theorem scanStep_some (ll lr mllp mlrp : ℚ) (pol por : Bool) (nap : ℚ)
    (st st' : ScanState) (p : ℚ × ℚ)
    (h : scanStep ll lr mllp mlrp pol por nap st p = some st') :
    st' = scanStepPure ll lr st p := by
  unfold scanStep at h
  dsimp only at h
  split_ifs at h
  all_goals first
    | exact Option.noConfusion h
    | exact (Option.some_inj.mp h).symm

theorem lossScan_accepted (ll lr mllp mlrp : ℚ) (pol por : Bool) (nap : ℚ) :
    ∀ (pairs : List (ℚ × ℚ)) (st st' : ScanState),
      lossScan ll lr mllp mlrp pol por nap pairs st = some st' →
      st' = pairs.foldl (scanStepPure ll lr) st := by
  intro pairs
  induction pairs with
  | nil => intro st st' h; simpa [lossScan] using h.symm
  | cons p rest ih =>
      intro st st' h
      rw [lossScan] at h
      cases hs : scanStep ll lr mllp mlrp pol por nap st p with
      | none => rw [hs] at h; exact absurd h (by simp)
      | some st1 =>
          rw [hs] at h
          rw [List.foldl_cons, ← scanStep_some ll lr mllp mlrp pol por nap st st1 p hs]
          exact ih st1 st' h

theorem trackExtrema_fields (st : ScanState) (p : ℚ × ℚ) :
    (trackExtrema st p).max_loss_left = st.max_loss_left ∧
    (trackExtrema st p).max_loss_right = st.max_loss_right ∧
    (trackExtrema st p).breakevens = st.breakevens ∧
    (trackExtrema st p).prev_pnl = st.prev_pnl ∧
    (trackExtrema st p).prev_price = st.prev_price ∧
    (trackExtrema st p).max_profit = (if p.2 > st.max_profit then p.2 else st.max_profit) ∧
    (trackExtrema st p).max_loss = (if p.2 < st.max_loss then p.2 else st.max_loss) := by
  unfold trackExtrema; exact ⟨rfl, rfl, rfl, rfl, rfl, rfl, rfl⟩

theorem trackBreakeven_fields (st : ScanState) (p : ℚ × ℚ) :
    (trackBreakeven st p).max_loss_left = st.max_loss_left ∧
    (trackBreakeven st p).max_loss_right = st.max_loss_right ∧
    (trackBreakeven st p).prev_pnl = st.prev_pnl ∧
    (trackBreakeven st p).prev_price = st.prev_price ∧
    (trackBreakeven st p).max_profit = st.max_profit ∧
    (trackBreakeven st p).max_loss = st.max_loss ∧
    (trackBreakeven st p).breakevens =
      (if st.prev_pnl * p.2 < 0 ∧ st.breakevens.length < MAX_BREAKEVEN then
        st.breakevens ++
          [st.prev_price + (p.1 - st.prev_price) * (-st.prev_pnl / (p.2 - st.prev_pnl))]
      else st.breakevens) := by
  unfold trackBreakeven
  by_cases h1 : st.prev_pnl * p.2 < 0
  · by_cases h2 : st.breakevens.length < MAX_BREAKEVEN
    · rw [if_pos h1, if_pos h2, if_pos ⟨h1, h2⟩]
      exact ⟨rfl, rfl, rfl, rfl, rfl, rfl, rfl⟩
    · rw [if_pos h1, if_neg h2, if_neg (fun h => h2 h.2)]
      exact ⟨rfl, rfl, rfl, rfl, rfl, rfl, rfl⟩
  · rw [if_neg h1, if_neg (fun h => h1 h.1)]
    exact ⟨rfl, rfl, rfl, rfl, rfl, rfl, rfl⟩

theorem trackPrev_fields (st : ScanState) (p : ℚ × ℚ) :
    (trackPrev st p).max_loss_left = st.max_loss_left ∧
    (trackPrev st p).max_loss_right = st.max_loss_right ∧
    (trackPrev st p).breakevens = st.breakevens ∧
    (trackPrev st p).max_profit = st.max_profit ∧
    (trackPrev st p).max_loss = st.max_loss ∧
    (trackPrev st p).prev_pnl = p.2 ∧
    (trackPrev st p).prev_price = p.1 := by
  unfold trackPrev; exact ⟨rfl, rfl, rfl, rfl, rfl, rfl, rfl⟩

theorem trackProfitZone_fields (st : ScanState) (p : ℚ × ℚ) :
    (trackProfitZone st p).max_loss_left = st.max_loss_left ∧
    (trackProfitZone st p).max_loss_right = st.max_loss_right ∧
    (trackProfitZone st p).breakevens = st.breakevens ∧
    (trackProfitZone st p).max_profit = st.max_profit ∧
    (trackProfitZone st p).max_loss = st.max_loss ∧
    (trackProfitZone st p).prev_pnl = st.prev_pnl ∧
    (trackProfitZone st p).prev_price = st.prev_price := by
  unfold trackProfitZone
  split_ifs <;> exact ⟨rfl, rfl, rfl, rfl, rfl, rfl, rfl⟩

theorem trackLossRegion_fields (ll lr : ℚ) (st : ScanState) (p : ℚ × ℚ) :
    (trackLossRegion ll lr st p).breakevens = st.breakevens ∧
    (trackLossRegion ll lr st p).max_profit = st.max_profit ∧
    (trackLossRegion ll lr st p).max_loss = st.max_loss ∧
    (trackLossRegion ll lr st p).prev_pnl = st.prev_pnl ∧
    (trackLossRegion ll lr st p).prev_price = st.prev_price ∧
    (trackLossRegion ll lr st p).max_loss_left =
      (if p.1 < ll then (if p.2 < st.max_loss_left then p.2 else st.max_loss_left)
       else st.max_loss_left) ∧
    (trackLossRegion ll lr st p).max_loss_right =
      (if p.1 < ll then st.max_loss_right
       else if p.1 > lr then (if p.2 < st.max_loss_right then p.2 else st.max_loss_right)
       else st.max_loss_right) := by
  unfold trackLossRegion
  split_ifs <;> exact ⟨rfl, rfl, rfl, rfl, rfl, rfl, rfl⟩

theorem scanStepPure_max_loss_left (ll lr : ℚ) (st : ScanState) (p : ℚ × ℚ) :
    (scanStepPure ll lr st p).max_loss_left =
      if p.1 < ll then (if p.2 < st.max_loss_left then p.2 else st.max_loss_left)
      else st.max_loss_left := by
  unfold scanStepPure
  rw [(trackLossRegion_fields ll lr _ p).2.2.2.2.2.1,
    (trackProfitZone_fields _ p).1, (trackPrev_fields _ p).1,
    (trackBreakeven_fields _ p).1, (trackExtrema_fields st p).1]

theorem scanStepPure_max_loss_right (ll lr : ℚ) (st : ScanState) (p : ℚ × ℚ) :
    (scanStepPure ll lr st p).max_loss_right =
      if p.1 < ll then st.max_loss_right
      else if p.1 > lr then (if p.2 < st.max_loss_right then p.2 else st.max_loss_right)
      else st.max_loss_right := by
  unfold scanStepPure
  rw [(trackLossRegion_fields ll lr _ p).2.2.2.2.2.2,
    (trackProfitZone_fields _ p).2.1, (trackPrev_fields _ p).2.1,
    (trackBreakeven_fields _ p).2.1, (trackExtrema_fields st p).2.1]

theorem scanStepPure_max_profit (ll lr : ℚ) (st : ScanState) (p : ℚ × ℚ) :
    (scanStepPure ll lr st p).max_profit =
      (if p.2 > st.max_profit then p.2 else st.max_profit) := by
  unfold scanStepPure
  rw [(trackLossRegion_fields ll lr _ p).2.1, (trackProfitZone_fields _ p).2.2.2.1,
    (trackPrev_fields _ p).2.2.2.1, (trackBreakeven_fields _ p).2.2.2.2.1,
    (trackExtrema_fields st p).2.2.2.2.2.1]

theorem scanStepPure_max_loss (ll lr : ℚ) (st : ScanState) (p : ℚ × ℚ) :
    (scanStepPure ll lr st p).max_loss =
      (if p.2 < st.max_loss then p.2 else st.max_loss) := by
  unfold scanStepPure
  rw [(trackLossRegion_fields ll lr _ p).2.2.1, (trackProfitZone_fields _ p).2.2.2.2.1,
    (trackPrev_fields _ p).2.2.2.2.1, (trackBreakeven_fields _ p).2.2.2.2.2.1,
    (trackExtrema_fields st p).2.2.2.2.2.2]

theorem scanStepPure_breakevens (ll lr : ℚ) (st : ScanState) (p : ℚ × ℚ) :
    (scanStepPure ll lr st p).breakevens =
      if st.prev_pnl * p.2 < 0 ∧ st.breakevens.length < MAX_BREAKEVEN then
        st.breakevens ++
          [st.prev_price + (p.1 - st.prev_price) * (-st.prev_pnl / (p.2 - st.prev_pnl))]
      else st.breakevens := by
  unfold scanStepPure
  rw [(trackLossRegion_fields ll lr _ p).1, (trackProfitZone_fields _ p).2.2.1,
    (trackPrev_fields _ p).2.2.1, (trackBreakeven_fields _ p).2.2.2.2.2.2,
    (trackExtrema_fields st p).2.2.1, (trackExtrema_fields st p).2.2.2.1,
    (trackExtrema_fields st p).2.2.2.2.1]

theorem scanStepPure_prev_pnl (ll lr : ℚ) (st : ScanState) (p : ℚ × ℚ) :
    (scanStepPure ll lr st p).prev_pnl = p.2 := by
  unfold scanStepPure
  rw [(trackLossRegion_fields ll lr _ p).2.2.2.1, (trackProfitZone_fields _ p).2.2.2.2.2.1,
    (trackPrev_fields _ p).2.2.2.2.2.1]

theorem scanStepPure_prev_price (ll lr : ℚ) (st : ScanState) (p : ℚ × ℚ) :
    (scanStepPure ll lr st p).prev_price = p.1 := by
  unfold scanStepPure
  rw [(trackLossRegion_fields ll lr _ p).2.2.2.2.1, (trackProfitZone_fields _ p).2.2.2.2.2.2,
    (trackPrev_fields _ p).2.2.2.2.2.2]

/-- Loss-extremum accumulation of the whole pure pass, as a fold. -/
theorem foldl_pure_max_loss_left (ll lr : ℚ) :
    ∀ (pairs : List (ℚ × ℚ)) (st : ScanState),
      (pairs.foldl (scanStepPure ll lr) st).max_loss_left =
        pairs.foldl
          (fun a p => if p.1 < ll then (if p.2 < a then p.2 else a) else a)
          st.max_loss_left := by
  intro pairs
  induction pairs with
  | nil => intro st; rfl
  | cons p rest ih =>
      intro st
      rw [List.foldl_cons, List.foldl_cons, ih, scanStepPure_max_loss_left]

theorem foldl_pure_max_loss_right (ll lr : ℚ) :
    ∀ (pairs : List (ℚ × ℚ)) (st : ScanState),
      (pairs.foldl (scanStepPure ll lr) st).max_loss_right =
        pairs.foldl
          (fun a p => if p.1 < ll then a
            else if p.1 > lr then (if p.2 < a then p.2 else a) else a)
          st.max_loss_right := by
  intro pairs
  induction pairs with
  | nil => intro st; rfl
  | cons p rest ih =>
      intro st
      rw [List.foldl_cons, List.foldl_cons, ih, scanStepPure_max_loss_right]

theorem foldl_pure_max_profit (ll lr : ℚ) :
    ∀ (pairs : List (ℚ × ℚ)) (st : ScanState),
      (pairs.foldl (scanStepPure ll lr) st).max_profit =
        pairs.foldl (fun a p => max a p.2) st.max_profit := by
  intro pairs
  induction pairs with
  | nil => intro st; rfl
  | cons p rest ih =>
      intro st
      rw [List.foldl_cons, List.foldl_cons, ih, scanStepPure_max_profit]
      congr 1
      rcases lt_or_le st.max_profit p.2 with h | h
      · rw [if_pos h, max_eq_right h.le]
      · rw [if_neg (not_lt.mpr h), max_eq_left h]

theorem foldl_pure_max_loss (ll lr : ℚ) :
    ∀ (pairs : List (ℚ × ℚ)) (st : ScanState),
      (pairs.foldl (scanStepPure ll lr) st).max_loss =
        pairs.foldl (fun a p => min a p.2) st.max_loss := by
  intro pairs
  induction pairs with
  | nil => intro st; rfl
  | cons p rest ih =>
      intro st
      rw [List.foldl_cons, List.foldl_cons, ih, scanStepPure_max_loss]
      congr 1
      rcases lt_or_le p.2 st.max_loss with h | h
      · rw [if_pos h, min_eq_right h.le]
      · rw [if_neg (not_lt.mpr h), min_eq_left h]

/-- Grid-adjacent sign changes of a P&L walk, linearly interpolated, starting
from a given previous point (specification-side description of the breakeven
detection loop). -/
def breakevenSpec : (ℚ × ℚ) → List (ℚ × ℚ) → List ℚ
  | _, [] => []
  | prev, p :: rest =>
      (if prev.2 * p.2 < 0 then
        [prev.1 + (p.1 - prev.1) * (-prev.2 / (p.2 - prev.2))]
      else []) ++ breakevenSpec p rest

/-- Breakevens of a `(price, pnl)` grid walk: adjacent sign changes,
interpolated. -/
def gridBreakevens (pairs : List (ℚ × ℚ)) : List ℚ :=
  match pairs with
  | [] => []
  | p :: rest => breakevenSpec p rest

theorem foldl_pure_breakevens (ll lr : ℚ) :
    ∀ (pairs : List (ℚ × ℚ)) (st : ScanState),
      (pairs.foldl (scanStepPure ll lr) st).breakevens =
        st.breakevens ++
          (breakevenSpec (st.prev_price, st.prev_pnl) pairs).take
            (MAX_BREAKEVEN - st.breakevens.length) := by
  intro pairs
  induction pairs with
  | nil => intro st; simp [breakevenSpec]
  | cons p rest ih =>
      intro st
      rw [List.foldl_cons, ih, scanStepPure_breakevens, scanStepPure_prev_pnl,
        scanStepPure_prev_price]
      by_cases hsc : st.prev_pnl * p.2 < 0
      · by_cases hlen : st.breakevens.length < MAX_BREAKEVEN
        · rw [if_pos ⟨hsc, hlen⟩]
          have hbudget : MAX_BREAKEVEN - st.breakevens.length
              = (MAX_BREAKEVEN - (st.breakevens.length + 1)) + 1 := by omega
          simp only [breakevenSpec, if_pos hsc, List.length_append, List.length_singleton,
            List.append_assoc, List.singleton_append, hbudget, List.take_succ_cons]
        · rw [if_neg (by tauto)]
          have hb0 : MAX_BREAKEVEN - st.breakevens.length = 0 := by omega
          simp only [breakevenSpec, if_pos hsc, hb0, List.singleton_append,
            List.take_zero, List.append_nil]
      · rw [if_neg (by tauto)]
        simp only [breakevenSpec, if_neg hsc, List.nil_append]

/-! ### Generic fold lemmas used to read off the scan results -/

theorem foldl_le_init (g : ℚ → ℚ × ℚ → ℚ) (hg : ∀ a p, g a p ≤ a) :
    ∀ (l : List (ℚ × ℚ)) (a : ℚ), l.foldl g a ≤ a := by
  intro l
  induction l with
  | nil => intro a; exact le_refl a
  | cons p rest ih => intro a; exact le_trans (ih (g a p)) (hg a p)

theorem foldl_regionMin_eq_filter (cond : ℚ × ℚ → Bool) :
    ∀ (l : List (ℚ × ℚ)) (a : ℚ),
      l.foldl (fun a p => if cond p then (if p.2 < a then p.2 else a) else a) a
        = (l.filter cond).foldl (fun a p => min a p.2) a := by
  intro l
  induction l with
  | nil => intro a; rfl
  | cons p rest ih =>
      intro a
      rw [List.foldl_cons]
      cases hc : cond p with
      | false => rw [if_neg (by simp [hc]), List.filter_cons_of_neg (by simp [hc]), ih]
      | true =>
          rw [if_pos (by simp [hc]), List.filter_cons_of_pos (by simp [hc]),
            List.foldl_cons, ih]
          congr 1
          rcases lt_or_le p.2 a with h | h
          · rw [if_pos h, min_eq_right h.le]
          · rw [if_neg (not_lt.mpr h), min_eq_left h]

theorem foldl_min_stays (l : List (ℚ × ℚ)) :
    ∀ a : ℚ, (∀ p ∈ l, a ≤ p.2) → l.foldl (fun a p => min a p.2) a = a := by
  induction l with
  | nil => intro a _; rfl
  | cons p rest ih =>
      intro a h
      rw [List.foldl_cons, min_eq_left (h p (by simp))]
      exact ih a (fun q hq => h q (by simp [hq]))

theorem foldl_min_le_init (l : List (ℚ × ℚ)) (a : ℚ) :
    l.foldl (fun a p => min a p.2) a ≤ a :=
  foldl_le_init _ (fun a p => min_le_left a p.2) l a

theorem le_foldl_max (l : List ℚ) : ∀ a : ℚ, a ≤ l.foldl max a := by
  induction l with
  | nil => intro a; exact le_refl a
  | cons x rest ih => intro a; exact le_trans (le_max_left a x) (ih (max a x))

theorem mem_le_foldl_max (l : List ℚ) : ∀ (a x : ℚ), x ∈ l → x ≤ l.foldl max a := by
  induction l with
  | nil => intro a x hx; exact absurd hx (by simp)
  | cons y rest ih =>
      intro a x hx
      rcases List.mem_cons.mp hx with rfl | hx
      · exact le_trans (le_max_right a x) (le_foldl_max rest _)
      · exact ih _ x hx

theorem foldl_max_mem (l : List ℚ) : ∀ a : ℚ, l.foldl max a = a ∨ l.foldl max a ∈ l := by
  induction l with
  | nil => intro a; exact Or.inl rfl
  | cons x rest ih =>
      intro a
      rcases ih (max a x) with h | h
      · rcases le_total a x with hax | hax
        · right; rw [List.foldl_cons, h, max_eq_right hax]; exact by simp
        · left; rw [List.foldl_cons, h, max_eq_left hax]
      · right; exact List.mem_cons_of_mem x h

theorem foldl_min_le_start (l : List ℚ) : ∀ a : ℚ, l.foldl min a ≤ a := by
  induction l with
  | nil => intro a; exact le_refl a
  | cons x rest ih => intro a; exact le_trans (ih (min a x)) (min_le_left a x)

theorem foldl_min_le_mem (l : List ℚ) : ∀ (a x : ℚ), x ∈ l → l.foldl min a ≤ x := by
  induction l with
  | nil => intro a x hx; exact absurd hx (by simp)
  | cons y rest ih =>
      intro a x hx
      rcases List.mem_cons.mp hx with rfl | hx
      · exact le_trans (foldl_min_le_start rest _) (min_le_right a x)
      · exact ih _ x hx

theorem foldl_min_mem (l : List ℚ) : ∀ a : ℚ, l.foldl min a = a ∨ l.foldl min a ∈ l := by
  induction l with
  | nil => intro a; exact Or.inl rfl
  | cons x rest ih =>
      intro a
      rcases ih (min a x) with h | h
      · rcases le_total a x with hax | hax
        · left; rw [List.foldl_cons, h, min_eq_left hax]
        · right; rw [List.foldl_cons, h, min_eq_right hax]; exact by simp
      · right; exact List.mem_cons_of_mem x h

/-! ### The global options cache, result strategies, and `bnb_store_result` -/

/-- The global C++ cache `struct OptionsCache` (`generation_cpp/bindings.cpp`).
The flat P&L buffer plus row pointers are modelled as a list of rows. -/
structure OptionsCache where
  options : List OptionData
  pnl_rows : List (List ℚ)
  prices : List ℚ
  mixture : List ℚ
  average_mix : ℚ
  valid : Bool
deriving DecidableEq

/-- `g_cache.options[i]`; out-of-range access (UB in the source) defaults. -/
def optAt (cache : OptionsCache) (i : ℕ) : OptionData :=
  cache.options.getD i default

/-- `struct ScoredStrategy`, parametric in the scalar type: `ℚ` for the
executable parts of the model, `ℝ` for the scoring pipeline (which uses
`exp`/`log`). The two variants' headers declare slightly different field
subsets of this union; each modelled function reads/writes only the fields
its source does, the rest stay at their zero default. -/
structure ScoredStrategy (α : Type) where
  total_premium : α
  total_delta : α
  total_gamma : α
  total_vega : α
  total_theta : α
  total_iv : α
  avg_implied_volatility : α
  average_pnl : α
  roll : α
  roll_quarterly : α
  roll_sum : α
  sigma_pnl : α
  max_profit : α
  max_loss : α
  max_loss_left : α
  max_loss_right : α
  min_profit_price : α
  max_profit_price : α
  profit_zone_width : α
  delta_levrage : α
  avg_pnl_levrage : α
  tail_penalty : α
  avg_intra_life_pnl : α
  call_count : ℤ
  put_count : ℤ
  breakeven_points : List α
  total_pnl_array : List α
  intra_life_prices : List α
  intra_life_pnl : List α
  option_indices : List ℕ
  signs : List ℤ
  strikes : List α
  is_calls : List Bool
  score : α
  rank : ℤ
deriving DecidableEq

/-- The zero-initialising default constructor of `ScoredStrategy`. -/
def ScoredStrategy.zero (α : Type) [Zero α] : ScoredStrategy α :=
  { total_premium := 0, total_delta := 0, total_gamma := 0, total_vega := 0,
    total_theta := 0, total_iv := 0, avg_implied_volatility := 0, average_pnl := 0,
    roll := 0, roll_quarterly := 0, roll_sum := 0, sigma_pnl := 0,
    max_profit := 0, max_loss := 0, max_loss_left := 0, max_loss_right := 0,
    min_profit_price := 0, max_profit_price := 0, profit_zone_width := 0,
    delta_levrage := 0, avg_pnl_levrage := 0, tail_penalty := 0,
    avg_intra_life_pnl := 0, call_count := 0, put_count := 0,
    breakeven_points := [], total_pnl_array := [], intra_life_prices := [],
    intra_life_pnl := [], option_indices := [], signs := [], strikes := [],
    is_calls := [], score := 0, rank := 0 }

instance (α : Type) [Zero α] : Inhabited (ScoredStrategy α) := ⟨ScoredStrategy.zero α⟩

/-- `bnb_store_result` (`generation_cpp/bindings.cpp` lines 261-301): copy the
metrics of a valid candidate into a `ScoredStrategy`; note
`max_loss = min(max_loss_left, max_loss_right)`, and the legs' strikes and
call/put flags are read back from the cache. `legs` is the `(index, sign)`
prefix of the recursion buffers at the stored depth. -/
def bnb_store_result (cache : OptionsCache) (legs : List (ℕ × ℤ))
    (m : StrategyMetrics) : ScoredStrategy ℚ :=
  { ScoredStrategy.zero ℚ with
    total_premium := m.total_premium
    total_delta := m.total_delta
    total_iv := m.total_iv
    average_pnl := m.total_average_pnl
    roll := m.total_roll
    max_profit := m.max_profit
    max_loss := min m.max_loss_left m.max_loss_right
    max_loss_left := m.max_loss_left
    max_loss_right := m.max_loss_right
    min_profit_price := m.min_profit_price
    max_profit_price := m.max_profit_price
    profit_zone_width := m.profit_zone_width
    call_count := m.call_count
    put_count := m.put_count
    breakeven_points := m.breakeven_points
    avg_pnl_levrage := m.avg_pnl_levrage
    intra_life_prices := m.intra_life_prices
    intra_life_pnl := m.intra_life_pnl
    avg_intra_life_pnl := m.avg_intra_life_pnl
    option_indices := legs.map (fun l => l.1)
    signs := legs.map (fun l => l.2)
    strikes := legs.map (fun l => (optAt cache l.1).strike)
    is_calls := legs.map (fun l => (optAt cache l.1).is_call) }

/-- The total P&L curve that `calculate` builds for given signs and rows. -/
def curveOf (signs : List ℤ) (pnl_rows : List (List ℚ)) (prices : List ℚ) : List ℚ :=
  totalPnlCurve (signs.zip pnl_rows) prices.length

/-- The `(price, pnl)` pairs the fused pass of `calculate` walks. -/
def gridPairs (signs : List ℤ) (pnl_rows : List (List ℚ)) (prices : List ℚ) : List (ℚ × ℚ) :=
  prices.zip (curveOf signs pnl_rows prices)

set_option maxHeartbeats 2000000 in
/-- Destructor for an accepting run of `calculate`: the scan-derived fields of
the returned metrics, as explicit folds over the `(price, pnl)` pairs. -/
theorem calculate_some_scan
    (options : List OptionData) (signs : List ℤ)
    (pnl_rows : List (List ℚ)) (prices : List ℚ)
    (am mllp mlrp maxp : ℚ) (og od : ℤ) (ms dmin dmax ll lr : ℚ)
    (po pol por : Bool) (m : StrategyMetrics)
    (h : calculate options signs pnl_rows prices am mllp mlrp maxp og od
        ms dmin dmax ll lr po pol por = some m) :
    prices ≠ [] ∧
    m.max_profit = (gridPairs signs pnl_rows prices).foldl (fun a p => max a p.2)
      ((curveOf signs pnl_rows prices).getD 0 0) ∧
    m.max_loss = (gridPairs signs pnl_rows prices).foldl (fun a p => min a p.2)
      ((curveOf signs pnl_rows prices).getD 0 0) ∧
    m.max_loss_left = (gridPairs signs pnl_rows prices).foldl
      (fun a p => if p.1 < ll then (if p.2 < a then p.2 else a) else a) 0 ∧
    m.max_loss_right = (gridPairs signs pnl_rows prices).foldl
      (fun a p => if p.1 < ll then a
        else if p.1 > lr then (if p.2 < a then p.2 else a) else a) 0 ∧
    m.breakeven_points =
      (breakevenSpec (0, (curveOf signs pnl_rows prices).getD 0 0)
        (gridPairs signs pnl_rows prices)).take MAX_BREAKEVEN := by
  unfold calculate at h
  dsimp only at h
  split_ifs at h with h1 h2 h3 h4 h5 h6 h7 <;> try exact Option.noConfusion h
  split at h
  · exact Option.noConfusion h
  · rename_i st hscan
    split_ifs at h with h8 <;> try exact Option.noConfusion h
    all_goals
      have hst := lossScan_accepted _ _ _ _ _ _ _ _ _ _ hscan
    all_goals
      have hm : m = _ := (Option.some_inj.mp h).symm
    all_goals
      have hprices : prices ≠ [] := fun hp => h1 (Or.inr (by rw [hp]; rfl))
    all_goals subst hm
    all_goals subst hst
    all_goals refine ⟨hprices, ?_, ?_, ?_, ?_, ?_⟩
    all_goals first
      | (show (List.foldl (scanStepPure ll lr) _ _).max_profit = _
         rw [foldl_pure_max_profit]; rfl)
      | (show (List.foldl (scanStepPure ll lr) _ _).max_loss = _
         rw [foldl_pure_max_loss]; rfl)
      | (show (List.foldl (scanStepPure ll lr) _ _).max_loss_left = _
         rw [foldl_pure_max_loss_left]; rfl)
      | (show (List.foldl (scanStepPure ll lr) _ _).max_loss_right = _
         rw [foldl_pure_max_loss_right]; rfl)
      | (show (List.foldl (scanStepPure ll lr) _ _).breakevens = _
         rw [foldl_pure_breakevens]; rfl)

/-! ### Conversions from scan folds to plain extrema, and claims C4 / C8 / C10 -/

theorem foldl_congr_fun (f g : ℚ → ℚ × ℚ → ℚ) (hfg : ∀ a p, f a p = g a p) :
    ∀ (l : List (ℚ × ℚ)) (a : ℚ), l.foldl f a = l.foldl g a := by
  intro l
  induction l with
  | nil => intro a; rfl
  | cons p rest ih => intro a; rw [List.foldl_cons, List.foldl_cons, hfg, ih]

theorem foldl_snd_max (pairs : List (ℚ × ℚ)) (a : ℚ) :
    pairs.foldl (fun a p => max a p.2) a = (pairs.map Prod.snd).foldl max a := by
  rw [List.foldl_map]

theorem foldl_snd_min (pairs : List (ℚ × ℚ)) (a : ℚ) :
    pairs.foldl (fun a p => min a p.2) a = (pairs.map Prod.snd).foldl min a := by
  rw [List.foldl_map]

theorem getD_zero_mem (l : List ℚ) (h : l ≠ []) : l.getD 0 0 ∈ l := by
  cases l with
  | nil => exact absurd rfl h
  | cons x xs => exact List.mem_cons_self x xs

theorem curveOf_ne_nil (signs : List ℤ) (pnl_rows : List (List ℚ)) (prices : List ℚ)
    (h : prices ≠ []) : curveOf signs pnl_rows prices ≠ [] := by
  intro hc
  apply h
  have := totalPnlCurve_length (signs.zip pnl_rows) prices.length
  rw [show curveOf signs pnl_rows prices
      = totalPnlCurve (signs.zip pnl_rows) prices.length from rfl] at hc
  rw [hc] at this
  exact List.length_eq_zero.mp this.symm

theorem gridPairs_map_snd (signs : List ℤ) (pnl_rows : List (List ℚ)) (prices : List ℚ) :
    (gridPairs signs pnl_rows prices).map Prod.snd = curveOf signs pnl_rows prices := by
  apply List.map_snd_zip
  rw [show curveOf signs pnl_rows prices
      = totalPnlCurve (signs.zip pnl_rows) prices.length from rfl,
    totalPnlCurve_length]

/-- Left-region condition of the loss pass: strictly left of `limit_left`. -/
def inLeftRegion (ll : ℚ) (p : ℚ × ℚ) : Bool := decide (p.1 < ll)

/-- Right-region condition of the loss pass: the `else if` branch, i.e. not
strictly left of `limit_left` and strictly right of `limit_right`. -/
def inRightRegion (ll lr : ℚ) (p : ℚ × ℚ) : Bool := !decide (p.1 < ll) && decide (p.1 > lr)

theorem max_loss_left_as_filter (ll : ℚ) (pairs : List (ℚ × ℚ)) :
    pairs.foldl (fun a p => if p.1 < ll then (if p.2 < a then p.2 else a) else a) 0
      = (pairs.filter (inLeftRegion ll)).foldl (fun a p => min a p.2) 0 := by
  rw [← foldl_regionMin_eq_filter (inLeftRegion ll) pairs 0]
  apply foldl_congr_fun
  intro a p
  by_cases h : p.1 < ll <;> simp [inLeftRegion, h]

theorem max_loss_right_as_filter (ll lr : ℚ) (pairs : List (ℚ × ℚ)) :
    pairs.foldl
        (fun a p => if p.1 < ll then a
          else if p.1 > lr then (if p.2 < a then p.2 else a) else a) 0
      = (pairs.filter (inRightRegion ll lr)).foldl (fun a p => min a p.2) 0 := by
  rw [← foldl_regionMin_eq_filter (inRightRegion ll lr) pairs 0]
  apply foldl_congr_fun
  intro a p
  by_cases h1 : p.1 < ll
  · simp [inRightRegion, h1]
  · by_cases h2 : p.1 > lr <;> simp [inRightRegion, h1, h2]

/-- Default metrics record, used only to name concrete `calculate` outputs. -/
def mdefault : StrategyMetrics :=
  { total_premium := 0, total_delta := 0, total_iv := 0, max_profit := 0,
    max_loss := 0, max_loss_left := 0, max_loss_right := 0, total_average_pnl := 0,
    min_profit_price := 0, max_profit_price := 0, profit_zone_width := 0,
    breakeven_points := [], total_roll := 0, call_count := 0, put_count := 0,
    avg_pnl_levrage := 0, intra_life_prices := [], intra_life_pnl := [],
    avg_intra_life_pnl := 0 }

/-- A valid single-instrument universe whose P&L curve is positive everywhere:
premium 0, zero greeks, call at strike 100, curve `[5, 5]` over prices
`[90, 110]`. -/
def exOption : OptionData :=
  { premium := 0, delta := 0, implied_volatility := 0, average_pnl := 0,
    strike := 100, roll := 0, is_call := true,
    intra_life_prices := [0, 0, 0, 0, 0], intra_life_pnl := [0, 0, 0, 0, 0] }

def exCache : OptionsCache :=
  { options := [exOption], pnl_rows := [[5, 5]], prices := [90, 110],
    mixture := [0, 0], average_mix := 100, valid := true }

/-- C4 counterexample: with curve `[5, 5]` over prices `[90, 110]`,
`limit_left = 100`, `limit_right = 105`, the candidate is accepted, the
curve's global minimum is `5`, yet the stored result's `max_loss` (which is
`min(max_loss_left, max_loss_right)`) is `0`, and `max_loss_left` is `0`
although the curve's minimum over the left region (the single point at price
`90`) is `5` — so neither the reported max loss nor the left/right fields are
the extrema of the (restricted) curve that the claim asserts. -/
theorem C4_counterexample :
    ((calculate [exOption] [1] [[5, 5]] [90, 110] 100 50 50 10 5 5 0 (-1) 1
        100 105 false false false).map
      (fun m => ((bnb_store_result exCache [(0, 1)] m).max_loss,
                 m.max_loss, m.max_loss_left, m.max_loss_right))
      = some (0, 5, 0, 0))
    ∧ ((gridPairs [1] [[5, 5]] [90, 110]).filter (inLeftRegion 100)).map Prod.snd = [5]
    ∧ (0 : ℚ) ≠ 5 := by
  refine ⟨?_, ?_, by norm_num⟩
  · norm_num [calculate, exOption, exCache, filter_useless_sell,
      filter_same_option_buy_sell, pairsNoConflict, legConflict, sumBy,
      callCountOf, putCountOf, netShortPutOf, netShortCallOf, totalPnlCurve,
      lossScan, scanStep, scanStepPure, trackExtrema, trackBreakeven, trackPrev,
      trackProfitZone, trackLossRegion, MAX_BREAKEVEN, N_INTRA_DATES,
      avg_pnl_levrage, bnb_store_result, optAt, ScoredStrategy.zero]
  · norm_num [gridPairs, curveOf, totalPnlCurve, inLeftRegion, List.filter]

/-- C4 (amended): for every accepted candidate, `max_profit` is the global
maximum of the total P&L curve and the metrics' `max_loss` is its global
minimum; but `max_loss_left` / `max_loss_right` are `min 0 (curve minimum
over the strictly-left / strictly-right region)` (0 when the region is empty
or the curve is nonnegative there), and the `max_loss` stored in the returned
result by `bnb_store_result` is `min max_loss_left max_loss_right`, not the
global minimum. -/
theorem C4_amended
    (options : List OptionData) (signs : List ℤ)
    (pnl_rows : List (List ℚ)) (prices : List ℚ)
    (am mllp mlrp maxp : ℚ) (og od : ℤ) (ms dmin dmax ll lr : ℚ)
    (po pol por : Bool) (m : StrategyMetrics)
    (h : calculate options signs pnl_rows prices am mllp mlrp maxp og od
        ms dmin dmax ll lr po pol por = some m) :
    (m.max_profit ∈ curveOf signs pnl_rows prices ∧
      ∀ x ∈ curveOf signs pnl_rows prices, x ≤ m.max_profit) ∧
    (m.max_loss ∈ curveOf signs pnl_rows prices ∧
      ∀ x ∈ curveOf signs pnl_rows prices, m.max_loss ≤ x) ∧
    m.max_loss_left =
      ((gridPairs signs pnl_rows prices).filter (inLeftRegion ll)).foldl
        (fun a p => min a p.2) 0 ∧
    m.max_loss_right =
      ((gridPairs signs pnl_rows prices).filter (inRightRegion ll lr)).foldl
        (fun a p => min a p.2) 0 ∧
    (∀ (cache : OptionsCache) (legs : List (ℕ × ℤ)),
      (bnb_store_result cache legs m).max_profit = m.max_profit ∧
      (bnb_store_result cache legs m).max_loss = min m.max_loss_left m.max_loss_right) := by
  obtain ⟨hpr, hmp, hml, hmll, hmlr, _⟩ :=
    calculate_some_scan options signs pnl_rows prices am mllp mlrp maxp og od
      ms dmin dmax ll lr po pol por m h
  have hcne := curveOf_ne_nil signs pnl_rows prices hpr
  have hc0 := getD_zero_mem _ hcne
  constructor
  · rw [hmp, foldl_snd_max, gridPairs_map_snd]
    constructor
    · rcases foldl_max_mem (curveOf signs pnl_rows prices)
          ((curveOf signs pnl_rows prices).getD 0 0) with he | he
      · rw [he]; exact hc0
      · exact he
    · intro x hx
      exact mem_le_foldl_max _ _ x hx
  constructor
  · rw [hml, foldl_snd_min, gridPairs_map_snd]
    constructor
    · rcases foldl_min_mem (curveOf signs pnl_rows prices)
          ((curveOf signs pnl_rows prices).getD 0 0) with he | he
      · rw [he]; exact hc0
      · exact he
    · intro x hx
      exact foldl_min_le_mem _ _ x hx
  refine ⟨?_, ?_, ?_⟩
  · rw [hmll, max_loss_left_as_filter]
  · rw [hmlr, max_loss_right_as_filter]
  · intro cache legs
    exact ⟨rfl, rfl⟩

/-- Witness for C4 at the concrete accepted candidate of the counterexample
universe. -/
theorem C4_witness :
    calculate [exOption] [1] [[5, 5]] [90, 110] 100 50 50 10 5 5 0 (-1) 1
        100 105 false false false
      = some ((calculate [exOption] [1] [[5, 5]] [90, 110] 100 50 50 10 5 5 0 (-1) 1
        100 105 false false false).getD mdefault) ∧
    (((calculate [exOption] [1] [[5, 5]] [90, 110] 100 50 50 10 5 5 0 (-1) 1
        100 105 false false false).getD mdefault).max_profit
      ∈ curveOf [1] [[5, 5]] [90, 110] ∧
      ∀ x ∈ curveOf [1] [[5, 5]] [90, 110],
        x ≤ ((calculate [exOption] [1] [[5, 5]] [90, 110] 100 50 50 10 5 5 0 (-1) 1
          100 105 false false false).getD mdefault).max_profit) := by
  have heval : calculate [exOption] [1] [[5, 5]] [90, 110] 100 50 50 10 5 5 0 (-1) 1
      100 105 false false false
      = some ((calculate [exOption] [1] [[5, 5]] [90, 110] 100 50 50 10 5 5 0 (-1) 1
        100 105 false false false).getD mdefault) := by
    norm_num [calculate, exOption, filter_useless_sell,
      filter_same_option_buy_sell, pairsNoConflict, legConflict, sumBy,
      callCountOf, putCountOf, netShortPutOf, netShortCallOf, totalPnlCurve,
      lossScan, scanStep, scanStepPure, trackExtrema, trackBreakeven, trackPrev,
      trackProfitZone, trackLossRegion, MAX_BREAKEVEN, N_INTRA_DATES,
      avg_pnl_levrage, mdefault]
  exact ⟨heval,
    (C4_amended [exOption] [1] [[5, 5]] [90, 110] 100 50 50 10 5 5 0 (-1) 1
      100 105 false false false _ heval).1⟩

/-- C10: for every accepted candidate, `max_loss_left` / `max_loss_right`
are `min 0` of the curve minimum over the strictly-left / strictly-right
region (so always `≤ 0`), points in the middle band never affect either
field, and a region that is empty or where the curve is nonnegative reports
exactly 0. The fold over the filtered region points is the precise content:
it starts at 0 and is lowered only by region points. -/
theorem C10_region_loss_invariant
    (options : List OptionData) (signs : List ℤ)
    (pnl_rows : List (List ℚ)) (prices : List ℚ)
    (am mllp mlrp maxp : ℚ) (og od : ℤ) (ms dmin dmax ll lr : ℚ)
    (po pol por : Bool) (m : StrategyMetrics)
    (h : calculate options signs pnl_rows prices am mllp mlrp maxp og od
        ms dmin dmax ll lr po pol por = some m) :
    m.max_loss_left =
      ((gridPairs signs pnl_rows prices).filter (inLeftRegion ll)).foldl
        (fun a p => min a p.2) 0 ∧
    m.max_loss_left ≤ 0 ∧
    ((∀ p ∈ (gridPairs signs pnl_rows prices).filter (inLeftRegion ll), 0 ≤ p.2) →
      m.max_loss_left = 0) ∧
    m.max_loss_right =
      ((gridPairs signs pnl_rows prices).filter (inRightRegion ll lr)).foldl
        (fun a p => min a p.2) 0 ∧
    m.max_loss_right ≤ 0 ∧
    ((∀ p ∈ (gridPairs signs pnl_rows prices).filter (inRightRegion ll lr), 0 ≤ p.2) →
      m.max_loss_right = 0) := by
  obtain ⟨hpr, _, _, hmll, hmlr, _⟩ :=
    calculate_some_scan options signs pnl_rows prices am mllp mlrp maxp og od
      ms dmin dmax ll lr po pol por m h
  have hl := hmll.trans (max_loss_left_as_filter ll _)
  have hr := hmlr.trans (max_loss_right_as_filter ll lr _)
  refine ⟨hl, ?_, ?_, hr, ?_, ?_⟩
  · rw [hl]; exact foldl_min_le_init _ 0
  · intro hpos; rw [hl]; exact foldl_min_stays _ 0 hpos
  · rw [hr]; exact foldl_min_le_init _ 0
  · intro hpos; rw [hr]; exact foldl_min_stays _ 0 hpos

/-- Witness for C10 at the concrete accepted candidate over `[90, 110]` with
curve `[5, 5]`. -/
theorem C10_witness :
    calculate [exOption] [1] [[5, 5]] [90, 110] 100 50 50 10 5 5 0 (-1) 1
        100 105 false false false
      = some ((calculate [exOption] [1] [[5, 5]] [90, 110] 100 50 50 10 5 5 0 (-1) 1
        100 105 false false false).getD mdefault) ∧
    ((calculate [exOption] [1] [[5, 5]] [90, 110] 100 50 50 10 5 5 0 (-1) 1
        100 105 false false false).getD mdefault).max_loss_left ≤ 0 ∧
    ((calculate [exOption] [1] [[5, 5]] [90, 110] 100 50 50 10 5 5 0 (-1) 1
        100 105 false false false).getD mdefault).max_loss_right ≤ 0 := by
  have heval : calculate [exOption] [1] [[5, 5]] [90, 110] 100 50 50 10 5 5 0 (-1) 1
      100 105 false false false
      = some ((calculate [exOption] [1] [[5, 5]] [90, 110] 100 50 50 10 5 5 0 (-1) 1
        100 105 false false false).getD mdefault) := by
    norm_num [calculate, exOption, filter_useless_sell,
      filter_same_option_buy_sell, pairsNoConflict, legConflict, sumBy,
      callCountOf, putCountOf, netShortPutOf, netShortCallOf, totalPnlCurve,
      lossScan, scanStep, scanStepPure, trackExtrema, trackBreakeven, trackPrev,
      trackProfitZone, trackLossRegion, MAX_BREAKEVEN, N_INTRA_DATES,
      avg_pnl_levrage, mdefault]
  obtain ⟨_, hle, _, _, hre, _⟩ :=
    C10_region_loss_invariant [exOption] [1] [[5, 5]] [90, 110] 100 50 50 10 5 5 0 (-1) 1
      100 105 false false false _ heval
  exact ⟨heval, hle, hre⟩

/-! ### C8: breakeven points and profit zone -/

theorem gridPairs_head_snd (signs : List ℤ) (pnl_rows : List (List ℚ)) (prices : List ℚ)
    (p : ℚ × ℚ) (rest : List (ℚ × ℚ))
    (h : gridPairs signs pnl_rows prices = p :: rest) :
    p.2 = (curveOf signs pnl_rows prices).getD 0 0 := by
  unfold gridPairs at h
  rcases prices with _ | ⟨a, pr⟩
  · exact absurd h (by simp)
  · rcases hcv : curveOf signs pnl_rows (a :: pr) with _ | ⟨c, cr⟩
    · rw [hcv] at h
      exact absurd h (by simp)
    · rw [hcv] at h
      rw [List.zip_cons_cons] at h
      have hp := (List.cons.injEq _ _ _ _).mp h |>.1
      rw [← hp]
      rfl

theorem breakevenSpec_from_start (c q : ℚ) (p : ℚ × ℚ) (rest : List (ℚ × ℚ))
    (hp : p.2 = c) :
    breakevenSpec (q, c) (p :: rest) = gridBreakevens (p :: rest) := by
  show (if (q, c).2 * p.2 < 0 then _ else []) ++ breakevenSpec p rest = breakevenSpec p rest
  rw [show ((q, c).2 : ℚ) = c from rfl, hp, if_neg (not_lt.mpr (mul_self_nonneg c))]
  rw [List.nil_append]

/-- The scenario instrument of C8: a call at strike 100, premium 3, with P&L
row `[-3, -1, 2, 5]`. -/
def c8Option : OptionData :=
  { premium := 3, delta := 0, implied_volatility := 0, average_pnl := 0,
    strike := 100, roll := 0, is_call := true,
    intra_life_prices := [0, 0, 0, 0, 0], intra_life_pnl := [0, 0, 0, 0, 0] }

/-- C8: for the curve `[-3, -1, 2, 5]` over prices `[90, 95, 100, 105]`, the
evaluator reports exactly one breakeven at `95 + 5·(1/3) = 290/3 (≈ 96.67)`
and a profit zone `[100, 105]` of width 5; and in general the breakevens of
every accepted candidate are the grid-adjacent sign changes of its curve,
linearly interpolated, with at most `MAX_BREAKEVEN = 10` retained. -/
theorem C8_breakeven_scenario_and_cap :
    ((calculate [c8Option] [1] [[-3, -1, 2, 5]] [90, 95, 100, 105] 0 100 100 10 5 5
        0 (-1) 1 80 200 false false false).map
      (fun m => (m.breakeven_points, m.min_profit_price, m.max_profit_price,
                 m.profit_zone_width))
      = some ([290 / 3], 100, 105, 5)) ∧
    (290 / 3 : ℚ) = 95 + 5 * (1 / 3) ∧
    (∀ (options : List OptionData) (signs : List ℤ)
       (pnl_rows : List (List ℚ)) (prices : List ℚ)
       (am mllp mlrp maxp : ℚ) (og od : ℤ) (ms dmin dmax ll lr : ℚ)
       (po pol por : Bool) (m : StrategyMetrics),
      calculate options signs pnl_rows prices am mllp mlrp maxp og od
          ms dmin dmax ll lr po pol por = some m →
      m.breakeven_points =
        (gridBreakevens (gridPairs signs pnl_rows prices)).take MAX_BREAKEVEN ∧
      m.breakeven_points.length ≤ MAX_BREAKEVEN) := by
  refine ⟨?_, by norm_num, ?_⟩
  · norm_num [calculate, c8Option, filter_useless_sell,
      filter_same_option_buy_sell, pairsNoConflict, legConflict, sumBy,
      callCountOf, putCountOf, netShortPutOf, netShortCallOf, totalPnlCurve,
      lossScan, scanStep, scanStepPure, trackExtrema, trackBreakeven, trackPrev,
      trackProfitZone, trackLossRegion, MAX_BREAKEVEN, N_INTRA_DATES,
      avg_pnl_levrage]
  · intro options signs pnl_rows prices am mllp mlrp maxp og od ms dmin dmax
      ll lr po pol por m h
    obtain ⟨hpr, _, _, _, _, hbe⟩ :=
      calculate_some_scan options signs pnl_rows prices am mllp mlrp maxp og od
        ms dmin dmax ll lr po pol por m h
    have hconv : breakevenSpec (0, (curveOf signs pnl_rows prices).getD 0 0)
        (gridPairs signs pnl_rows prices)
        = gridBreakevens (gridPairs signs pnl_rows prices) := by
      rcases hp : gridPairs signs pnl_rows prices with _ | ⟨p, rest⟩
      · rfl
      · exact breakevenSpec_from_start _ 0 p rest (gridPairs_head_snd _ _ _ p rest hp)
    constructor
    · rw [hbe, hconv]
    · rw [hbe]
      exact le_trans (List.length_take_le _ _) le_rfl

/-- Witness for C8's general part at the scenario candidate itself. -/
theorem C8_witness :
    calculate [c8Option] [1] [[-3, -1, 2, 5]] [90, 95, 100, 105] 0 100 100 10 5 5
        0 (-1) 1 80 200 false false false
      = some ((calculate [c8Option] [1] [[-3, -1, 2, 5]] [90, 95, 100, 105] 0 100 100
        10 5 5 0 (-1) 1 80 200 false false false).getD mdefault) ∧
    ((calculate [c8Option] [1] [[-3, -1, 2, 5]] [90, 95, 100, 105] 0 100 100
        10 5 5 0 (-1) 1 80 200 false false false).getD mdefault).breakeven_points.length
      ≤ MAX_BREAKEVEN := by
  have heval : calculate [c8Option] [1] [[-3, -1, 2, 5]] [90, 95, 100, 105] 0 100 100
      10 5 5 0 (-1) 1 80 200 false false false
      = some ((calculate [c8Option] [1] [[-3, -1, 2, 5]] [90, 95, 100, 105] 0 100 100
        10 5 5 0 (-1) 1 80 200 false false false).getD mdefault) := by
    norm_num [calculate, c8Option, filter_useless_sell,
      filter_same_option_buy_sell, pairsNoConflict, legConflict, sumBy,
      callCountOf, putCountOf, netShortPutOf, netShortCallOf, totalPnlCurve,
      lossScan, scanStep, scanStepPure, trackExtrema, trackBreakeven, trackPrev,
      trackProfitZone, trackLossRegion, MAX_BREAKEVEN, N_INTRA_DATES,
      avg_pnl_levrage, mdefault]
  exact ⟨heval,
    (C8_breakeven_scenario_and_cap.2.2 [c8Option] [1] [[-3, -1, 2, 5]]
      [90, 95, 100, 105] 0 100 100 10 5 5 0 (-1) 1 80 200 false false false
      _ heval).2⟩

/-! ### The exhaustive combination enumerator (C3)

`StrategyCalculator::next_combination` scans from the rightmost index that
can still be incremented, increments it, and resets every index to its right
to the same value; the driver starts from the all-zero vector and pushes
every vector a do-while loop visits. The recursion below tries the tail
first (the rightmost incrementable position) and only then the head, which
is the same scan. `c[i] < N - 1` on C++ `int`s is `x + 1 < N` on `ℕ`. -/
def next_combination (N : ℕ) : List ℕ → Option (List ℕ)
  | [] => none
  | x :: xs =>
      match next_combination N xs with
      | some ys => some (x :: ys)
      | none =>
          if x + 1 < N then some ((x + 1) :: List.replicate xs.length (x + 1)) else none

/-- The do-while loop of `process_combinations_batch_with_scoring` (lines
158-161): push the current vector, advance with `next_combination`, stop when
it returns `false`. The loop terminates because the vector strictly grows in
base-`N` value; `fuel` is an upper bound on the number of iterations, made
irrelevant by `combosAux_of_chain` below. -/
def combosAux (N : ℕ) : ℕ → List ℕ → List (List ℕ)
  | 0, _ => []
  | fuel + 1, c =>
      c :: (match next_combination N c with
            | none => []
            | some c' => combosAux N fuel c')

/-- All index combinations the exhaustive driver enumerates for leg count
`k` over `N` instruments; `N ^ k + 1` iterations always suffice
(`canonFrom_length_le_pow`). -/
def allCombos (N k : ℕ) : List (List ℕ) :=
  combosAux N (N ^ k + 1) (List.replicate k 0)

/-- Canonical list of all nondecreasing `k`-tuples over `[lo, N)` in
lexicographic order — the specification-side description of what the
successor enumeration visits. -/
def canonFrom (N : ℕ) : ℕ → ℕ → List (List ℕ)
  | 0, _ => [[]]
  | k + 1, lo =>
      if lo < N then
        ((canonFrom N k lo).map (fun t => lo :: t)) ++ canonFrom N (k + 1) (lo + 1)
      else []
termination_by k lo => (k, N - lo)
decreasing_by
  · exact Prod.Lex.left _ _ (Nat.lt_succ_self k)
  · exact Prod.Lex.right _ (by omega)

/-- `okTuple N lo c = true` iff `c` is nondecreasing with entries in
`[lo, N)`. -/
def okTuple (N : ℕ) : ℕ → List ℕ → Bool
  | _, [] => true
  | lo, a :: t => decide (lo ≤ a) && decide (a < N) && okTuple N a t

theorem canonFrom_zero (N lo : ℕ) : canonFrom N 0 lo = [[]] := by
  rw [canonFrom]

theorem canonFrom_succ (N k lo : ℕ) (h : lo < N) :
    canonFrom N (k + 1) lo
      = ((canonFrom N k lo).map (fun t => lo :: t)) ++ canonFrom N (k + 1) (lo + 1) := by
  rw [canonFrom, if_pos h]

theorem canonFrom_stop (N k lo : ℕ) (h : ¬ lo < N) : canonFrom N (k + 1) lo = [] := by
  rw [canonFrom, if_neg h]

theorem next_combination_replicate_top (N : ℕ) :
    ∀ m, next_combination N (List.replicate m (N - 1)) = none := by
  intro m
  induction m with
  | zero => rfl
  | succ m ih =>
      rw [List.replicate_succ, next_combination, ih, if_neg (by omega)]

theorem canonFrom_ne_nil (N : ℕ) : ∀ (k lo : ℕ), lo < N → canonFrom N k lo ≠ [] := by
  intro k
  induction k with
  | zero => intro lo _; rw [canonFrom_zero]; simp
  | succ k ih =>
      intro lo h
      rw [canonFrom_succ N k lo h]
      have := ih lo h
      simp_all

theorem canonFrom_head (N : ℕ) :
    ∀ (k lo : ℕ), lo < N →
      ∃ t, canonFrom N k lo = (List.replicate k lo) :: t := by
  intro k
  induction k with
  | zero => intro lo _; exact ⟨[], by rw [canonFrom_zero]; rfl⟩
  | succ k ih =>
      intro lo h
      obtain ⟨t, ht⟩ := ih lo h
      refine ⟨(t.map (fun t => lo :: t)) ++ canonFrom N (k + 1) (lo + 1), ?_⟩
      rw [canonFrom_succ N k lo h, ht, List.map_cons, List.cons_append,
        List.replicate_succ]

theorem canonFrom_getLast? (N k lo : ℕ) :
    lo < N → (canonFrom N k lo).getLast? = some (List.replicate k (N - 1)) := by
  induction k, lo using canonFrom.induct (N := N) with
  | case1 lo => intro _; rw [canonFrom_zero]; rfl
  | case2 k lo hlo ih1 ih2 =>
      intro _
      rw [canonFrom_succ N k lo hlo]
      by_cases h2 : lo + 1 < N
      · rw [List.getLast?_append, ih2 h2]
        rfl
      · rw [canonFrom_stop N k (lo + 1) h2, List.append_nil, List.getLast?_map,
          ih1 hlo, Option.map_some']
        have hlo1 : lo = N - 1 := by omega
        rw [hlo1, ← List.replicate_succ]
  | case3 k lo hlo => intro h; exact absurd h hlo

theorem next_combination_cons_of_some (N : ℕ) (x : ℕ) (xs ys : List ℕ)
    (h : next_combination N xs = some ys) :
    next_combination N (x :: xs) = some (x :: ys) := by
  rw [next_combination, h]

theorem canonFrom_chain (N k lo : ℕ) :
    List.Chain' (fun a b => next_combination N a = some b) (canonFrom N k lo) := by
  induction k, lo using canonFrom.induct (N := N) with
  | case1 lo => rw [canonFrom_zero]; exact List.chain'_singleton _
  | case2 k lo hlo ih1 ih2 =>
      rw [canonFrom_succ N k lo hlo, List.chain'_append]
      refine ⟨?_, ih2, ?_⟩
      · rw [List.chain'_map]
        exact ih1.imp (fun a b hab => next_combination_cons_of_some N lo a b hab)
      · intro x hx y hy
        rw [List.getLast?_map, canonFrom_getLast? N k lo hlo, Option.map_some'] at hx
        have hx' : x = lo :: List.replicate k (N - 1) := Option.some_inj.mp hx.symm
        by_cases h2 : lo + 1 < N
        · obtain ⟨t, ht⟩ := canonFrom_head N (k + 1) (lo + 1) h2
          rw [ht] at hy
          have hy' : y = List.replicate (k + 1) (lo + 1) := Option.some_inj.mp hy.symm
          rw [hx', hy', next_combination, next_combination_replicate_top N k,
            List.replicate_succ]
          rw [if_pos h2, List.length_replicate]
        · rw [canonFrom_stop N k (lo + 1) h2] at hy
          exact absurd hy (by simp)
  | case3 k lo hlo => rw [canonFrom_stop N k lo hlo]; exact List.chain'_nil

theorem combosAux_eq_of_chain (N : ℕ) :
    ∀ (rest : List (List ℕ)) (c : List ℕ) (fuel : ℕ),
      List.Chain' (fun a b => next_combination N a = some b) (c :: rest) →
      (∀ x, (c :: rest).getLast? = some x → next_combination N x = none) →
      (c :: rest).length ≤ fuel →
      combosAux N fuel c = c :: rest := by
  intro rest
  induction rest with
  | nil =>
      intro c fuel _ hlast hfuel
      rcases fuel with _ | f
      · exact absurd hfuel (by simp)
      · rw [combosAux, hlast c rfl]
  | cons c2 rest' ih =>
      intro c fuel hchain hlast hfuel
      rcases fuel with _ | f
      · exact absurd hfuel (by simp)
      · have hstep : next_combination N c = some c2 :=
          (List.chain'_cons.mp hchain).1
        rw [combosAux, hstep]
        have htail := ih c2 f (List.chain'_cons.mp hchain).2
          (fun x hx => hlast x (by rw [List.getLast?_cons_cons]; exact hx))
          (by simpa using Nat.lt_succ_iff.mp (by simpa using hfuel))
        exact congrArg (fun l => c :: l) htail

theorem canonFrom_length (N k lo : ℕ) :
    (canonFrom N k lo).length = Nat.multichoose (N - lo) k := by
  induction k, lo using canonFrom.induct (N := N) with
  | case1 lo => rw [canonFrom_zero, Nat.multichoose_zero_right]; rfl
  | case2 k lo hlo ih1 ih2 =>
      rw [canonFrom_succ N k lo hlo, List.length_append, List.length_map, ih1, ih2]
      obtain ⟨m, hm⟩ : ∃ m, N - lo = m + 1 := ⟨N - lo - 1, by omega⟩
      rw [hm, show N - (lo + 1) = m from by omega, Nat.multichoose_succ_succ,
        Nat.add_comm]
  | case3 k lo hlo =>
      rw [canonFrom_stop N k lo hlo, show N - lo = 0 from by omega,
        Nat.multichoose_zero_succ]
      rfl

theorem multichoose_le_pow : ∀ (k n : ℕ), 1 ≤ n → Nat.multichoose n k ≤ n ^ k := by
  intro k
  induction k with
  | zero => intro n _; rw [Nat.multichoose_zero_right, pow_zero]
  | succ k ihk =>
      intro n hn
      induction n with
      | zero => omega
      | succ n ihn =>
          rcases Nat.eq_zero_or_pos n with rfl | hn'
          · rw [Nat.multichoose_one]
            exact Nat.one_le_pow _ _ (by omega)
          · rw [Nat.multichoose_succ_succ]
            have h1 := ihn (by omega)
            have h2 := ihk (n + 1) (by omega)
            have h3 : n ^ (k + 1) ≤ n * (n + 1) ^ k :=
              le_trans (by rw [pow_succ, Nat.mul_comm])
                (Nat.mul_le_mul_left n (Nat.pow_le_pow_left (by omega) k))
            have h4 : (n + 1) ^ (k + 1) = n * (n + 1) ^ k + (n + 1) ^ k := by
              rw [pow_succ, Nat.mul_comm ((n+1)^k) (n+1)]
              ring
            omega

/-- With at least one instrument, the do-while enumeration from the all-zero
vector visits exactly the canonical lexicographic list of nondecreasing
`k`-tuples over `[0, N)`. -/
theorem allCombos_eq_canonFrom (N k : ℕ) (hN : 1 ≤ N) :
    allCombos N k = canonFrom N k 0 := by
  obtain ⟨t, ht⟩ := canonFrom_head N k 0 hN
  have hlen : (canonFrom N k 0).length ≤ N ^ k + 1 := by
    rw [canonFrom_length, Nat.sub_zero]
    have := multichoose_le_pow k N (by omega)
    omega
  have := combosAux_eq_of_chain N t (List.replicate k 0) (N ^ k + 1)
    (by rw [← ht]; exact canonFrom_chain N k 0)
    (by
      intro x hx
      rw [← ht, canonFrom_getLast? N k 0 hN] at hx
      have hx' : List.replicate k (N - 1) = x := Option.some_inj.mp hx
      rw [← hx']
      exact next_combination_replicate_top N k)
    (by rw [← ht]; exact hlen)
  rw [show allCombos N k = combosAux N (N ^ k + 1) (List.replicate k 0) from rfl,
    this, ht]

theorem okTuple_cons (N lo a : ℕ) (t : List ℕ) :
    okTuple N lo (a :: t) = true ↔ lo ≤ a ∧ a < N ∧ okTuple N a t = true := by
  rw [okTuple]
  simp [and_assoc]

theorem okTuple_mono (N lo lo' : ℕ) (h : lo ≤ lo') :
    ∀ x, okTuple N lo' x = true → okTuple N lo x = true := by
  intro x hx
  cases x with
  | nil => rfl
  | cons a t =>
      obtain ⟨h1, h2, h3⟩ := (okTuple_cons N lo' a t).mp hx
      exact (okTuple_cons N lo a t).mpr ⟨le_trans h h1, h2, h3⟩

theorem canonFrom_mem (N k lo : ℕ) :
    ∀ x, x ∈ canonFrom N k lo ↔ (x.length = k ∧ okTuple N lo x = true) := by
  induction k, lo using canonFrom.induct (N := N) with
  | case1 lo =>
      intro x
      rw [canonFrom_zero]
      constructor
      · intro hx
        rw [List.mem_singleton.mp hx]
        exact ⟨rfl, rfl⟩
      · intro ⟨hlen, _⟩
        rw [List.length_eq_zero.mp hlen]
        exact List.mem_singleton.mpr rfl
  | case2 k lo hlo ih1 ih2 =>
      intro x
      rw [canonFrom_succ N k lo hlo, List.mem_append, List.mem_map]
      constructor
      · rintro (⟨y, hy, rfl⟩ | hx)
        · obtain ⟨hlen, hok⟩ := (ih1 y).mp hy
          exact ⟨by simp [hlen],
            (okTuple_cons N lo lo y).mpr ⟨le_refl lo, hlo, hok⟩⟩
        · obtain ⟨hlen, hok⟩ := (ih2 x).mp hx
          exact ⟨hlen, okTuple_mono N lo (lo + 1) (by omega) x hok⟩
      · rintro ⟨hlen, hok⟩
        rcases x with _ | ⟨a, t⟩
        · exact absurd hlen (by simp)
        · obtain ⟨h1, h2, h3⟩ := (okTuple_cons N lo a t).mp hok
          rcases Nat.eq_or_lt_of_le h1 with rfl | hlt
          · exact Or.inl ⟨t, (ih1 t).mpr ⟨by simpa using hlen, h3⟩, rfl⟩
          · refine Or.inr ((ih2 (a :: t)).mpr ⟨hlen, ?_⟩)
            exact (okTuple_cons N (lo + 1) a t).mpr ⟨by omega, h2, h3⟩
  | case3 k lo hlo =>
      intro x
      rw [canonFrom_stop N k lo hlo]
      constructor
      · intro hx; exact absurd hx (by simp)
      · rintro ⟨hlen, hok⟩
        rcases x with _ | ⟨a, t⟩
        · exact absurd hlen (by simp)
        · obtain ⟨h1, h2, _⟩ := (okTuple_cons N lo a t).mp hok
          omega

theorem canonFrom_nodup (N k lo : ℕ) : (canonFrom N k lo).Nodup := by
  induction k, lo using canonFrom.induct (N := N) with
  | case1 lo => rw [canonFrom_zero]; exact List.nodup_singleton _
  | case2 k lo hlo ih1 ih2 =>
      rw [canonFrom_succ N k lo hlo]
      refine List.Nodup.append (ih1.map (fun a b hab => (List.cons.injEq _ _ _ _).mp hab |>.2)) ih2 ?_
      intro x hxb hxr
      obtain ⟨y, _, rfl⟩ := List.mem_map.mp hxb
      obtain ⟨_, hok⟩ := (canonFrom_mem N (k + 1) (lo + 1) _).mp hxr
      obtain ⟨h1, _, _⟩ := (okTuple_cons N (lo + 1) lo y).mp hok
      omega
  | case3 k lo hlo => rw [canonFrom_stop N k lo hlo]; exact List.nodup_nil

theorem canonFrom_pairwise_lex (N k lo : ℕ) :
    List.Pairwise (List.Lex (· < ·)) (canonFrom N k lo) := by
  induction k, lo using canonFrom.induct (N := N) with
  | case1 lo => rw [canonFrom_zero]; exact List.pairwise_singleton _ _
  | case2 k lo hlo ih1 ih2 =>
      rw [canonFrom_succ N k lo hlo, List.pairwise_append]
      refine ⟨?_, ih2, ?_⟩
      · rw [List.pairwise_map]
        exact ih1.imp (fun hab => List.Lex.cons hab)
      · intro x hxb z hzr
        obtain ⟨y, _, rfl⟩ := List.mem_map.mp hxb
        obtain ⟨hlen, hok⟩ := (canonFrom_mem N (k + 1) (lo + 1) z).mp hzr
        rcases z with _ | ⟨a, t⟩
        · exact absurd hlen (by simp)
        · obtain ⟨h1, _, _⟩ := (okTuple_cons N (lo + 1) a t).mp hok
          exact List.Lex.rel (by omega)
  | case3 k lo hlo => rw [canonFrom_stop N k lo hlo]; exact List.Pairwise.nil

/-! ### Sign masks: bit `i` of `mask` selects `+1`/`-1` for leg `i` -/

/-- `(mask & (1 << i)) ? 1 : -1` for `i = 0 .. k-1`. -/
def signsOfMask (k mask : ℕ) : List ℤ :=
  (List.range k).map (fun i => if mask.testBit i then (1 : ℤ) else -1)

/-- Reconstruct the mask from a `±1` sign vector. -/
def maskOfSigns : List ℤ → ℕ
  | [] => 0
  | s :: t => (if s = 1 then 1 else 0) + 2 * maskOfSigns t

theorem signsOfMask_zero (mask : ℕ) : signsOfMask 0 mask = [] := rfl

theorem signsOfMask_succ (k mask : ℕ) :
    signsOfMask (k + 1) mask
      = (if mask.testBit 0 then (1 : ℤ) else -1) :: signsOfMask k (mask / 2) := by
  unfold signsOfMask
  rw [List.range_succ_eq_map, List.map_cons, List.map_map]
  congr 1
  apply List.map_congr_left
  intro i _
  rw [Function.comp_apply, Nat.testBit_succ]

theorem signsOfMask_length (k mask : ℕ) : (signsOfMask k mask).length = k := by
  unfold signsOfMask
  rw [List.length_map, List.length_range]

theorem signsOfMask_mem (k mask : ℕ) : ∀ s ∈ signsOfMask k mask, s = 1 ∨ s = -1 := by
  intro s hs
  obtain ⟨i, _, hi⟩ := List.mem_map.mp hs
  by_cases h : mask.testBit i
  · rw [if_pos h] at hi; exact Or.inl hi.symm
  · rw [if_neg h] at hi; exact Or.inr hi.symm

theorem maskOfSigns_lt (sgns : List ℤ) : maskOfSigns sgns < 2 ^ sgns.length := by
  induction sgns with
  | nil => rw [maskOfSigns]; simp
  | cons s t ih =>
      rw [maskOfSigns, List.length_cons, pow_succ]
      by_cases h : s = 1 <;> [rw [if_pos h]; rw [if_neg h]] <;> omega

theorem signsOfMask_maskOfSigns (sgns : List ℤ) (hs : ∀ s ∈ sgns, s = 1 ∨ s = -1) :
    signsOfMask sgns.length (maskOfSigns sgns) = sgns := by
  induction sgns with
  | nil => rfl
  | cons s t ih =>
      rw [List.length_cons, signsOfMask_succ, maskOfSigns]
      by_cases h : s = 1
      · rw [if_pos h]
        have hb : ((1 + 2 * maskOfSigns t).testBit 0) = true := by
          rw [Nat.testBit_zero]
          simp [Nat.add_mul_mod_self_left]
        rw [hb, if_pos rfl, h]
        congr 1
        rw [show (1 + 2 * maskOfSigns t) / 2 = maskOfSigns t from by omega]
        exact ih (fun x hx => hs x (List.mem_cons_of_mem s hx))
      · rw [if_neg h]
        have hb : ((0 + 2 * maskOfSigns t).testBit 0) = false := by
          rw [Nat.testBit_zero]
          simp [Nat.mul_mod_right]
        rw [hb, if_neg (by simp)]
        have hsv : s = -1 := (hs s (List.mem_cons_self s t)).resolve_left h
        rw [hsv]
        congr 1
        rw [show (0 + 2 * maskOfSigns t) / 2 = maskOfSigns t from by omega]
        exact ih (fun x hx => hs x (List.mem_cons_of_mem s hx))

theorem signsOfMask_injOn (k : ℕ) :
    ∀ m1 m2, m1 < 2 ^ k → m2 < 2 ^ k →
      signsOfMask k m1 = signsOfMask k m2 → m1 = m2 := by
  induction k with
  | zero => intro m1 m2 h1 h2 _; omega
  | succ k ih =>
      intro m1 m2 h1 h2 heq
      rw [signsOfMask_succ, signsOfMask_succ] at heq
      have hhead := (List.cons.injEq _ _ _ _).mp heq |>.1
      have htail := (List.cons.injEq _ _ _ _).mp heq |>.2
      have hb : m1.testBit 0 = m2.testBit 0 := by
        by_cases hb1 : m1.testBit 0 <;> by_cases hb2 : m2.testBit 0 <;>
          simp [hb1, hb2] at hhead ⊢ <;> omega
      have hdiv : m1 / 2 = m2 / 2 := by
        apply ih (m1 / 2) (m2 / 2) _ _ htail
        · have := Nat.pow_succ 2 k; omega
        · have := Nat.pow_succ 2 k; omega
      rw [Nat.testBit_zero, Nat.testBit_zero] at hb
      by_cases ho : m1 % 2 = 1 <;> by_cases ho2 : m2 % 2 = 1 <;>
        simp [ho, ho2] at hb <;> omega

/-- The flattened work-unit space of exhaustive mode for leg count `k`:
`task_id = combo_idx * n_masks + mask`, i.e. every enumerated combination
crossed with every sign mask, combination-major. -/
def exhaustiveTasks (N k : ℕ) : List (List ℕ × ℕ) :=
  (allCombos N k).flatMap (fun c => (List.range (2 ^ k)).map (fun m => (c, m)))

theorem length_flatMap_const {α β : Type} (l : List α) (f : α → List β) (n : ℕ)
    (h : ∀ a ∈ l, (f a).length = n) : (l.flatMap f).length = l.length * n := by
  induction l with
  | nil => simp
  | cons a t ih =>
      rw [List.flatMap_cons, List.length_append, h a (by simp),
        ih (fun x hx => h x (by simp [hx])), List.length_cons]
      ring

theorem exhaustiveTasks_length (N k : ℕ) :
    (exhaustiveTasks N k).length = (allCombos N k).length * 2 ^ k := by
  exact length_flatMap_const _ _ _ (fun a _ => by simp)

/-- C3 counterexample: the enumerator starts at the all-zero vector and its
successor keeps duplicate indices (combinations **with** repetition), so for
`N = 3, k = 2` it produces 6 combinations and 24 work units — not
`C(3,2) = 3` combinations and `C(3,2)·2² = 12` work units as the claim
states. -/
theorem C3_counterexample :
    (allCombos 3 2).length = 6 ∧ Nat.choose 3 2 = 3 ∧
    (exhaustiveTasks 3 2).length = 24 ∧ Nat.choose 3 2 * 2 ^ 2 = 12 ∧
    (exhaustiveTasks 3 2).length ≠ Nat.choose 3 2 * 2 ^ 2 := by
  refine ⟨by decide, by decide, ?_, by decide, ?_⟩
  · rw [exhaustiveTasks_length]; decide
  · rw [exhaustiveTasks_length]; decide

/-- C3 (amended): in exhaustive mode, for each leg count `k` the enumerator
generates exactly the non-decreasing (multiset) index combinations over
`[0, N)` in lexicographic order via the next-combination successor — that is
`C(N+k-1, k)` combinations, not `C(N, k)` — crossed with all `2^k` sign
masks, for `C(N+k-1, k)·2^k` work units in total, with no omission and no
duplicate among the generated `(combination, sign-vector)` candidates. -/
theorem C3_amended (N k : ℕ) (hN : 1 ≤ N) :
    allCombos N k = canonFrom N k 0 ∧
    List.Pairwise (List.Lex (· < ·)) (allCombos N k) ∧
    (∀ x, x ∈ allCombos N k ↔ (x.length = k ∧ okTuple N 0 x = true)) ∧
    (allCombos N k).length = (N + k - 1).choose k ∧
    (exhaustiveTasks N k).length = (N + k - 1).choose k * 2 ^ k ∧
    ((exhaustiveTasks N k).map (fun cm => (cm.1, signsOfMask k cm.2))).Nodup ∧
    (∀ (c : List ℕ) (s : List ℤ),
      (c, s) ∈ (exhaustiveTasks N k).map (fun cm => (cm.1, signsOfMask k cm.2)) ↔
      (c.length = k ∧ okTuple N 0 c = true ∧ s.length = k ∧
        ∀ x ∈ s, x = 1 ∨ x = -1)) := by
  have heq := allCombos_eq_canonFrom N k hN
  have hlen : (allCombos N k).length = (N + k - 1).choose k := by
    rw [heq, canonFrom_length, Nat.sub_zero, Nat.multichoose_eq]
  have hform : (exhaustiveTasks N k).map (fun cm => (cm.1, signsOfMask k cm.2))
      = (allCombos N k).flatMap
          (fun c => (List.range (2 ^ k)).map (fun m => (c, signsOfMask k m))) := by
    rw [exhaustiveTasks, List.map_flatMap]
    congr 1
    funext c
    rw [List.map_map]
    rfl
  refine ⟨heq, ?_, ?_, hlen, ?_, ?_, ?_⟩
  · rw [heq]; exact canonFrom_pairwise_lex N k 0
  · intro x; rw [heq]; exact canonFrom_mem N k 0 x
  · rw [exhaustiveTasks_length, hlen]
  · rw [hform, List.nodup_flatMap]
    constructor
    · intro c _
      apply List.Nodup.map_on _ (List.nodup_range _)
      intro m1 h1 m2 h2 hpair
      have := (Prod.mk.injEq _ _ _ _).mp hpair |>.2
      exact signsOfMask_injOn k m1 m2 (List.mem_range.mp h1) (List.mem_range.mp h2) this
    · have hnd : (allCombos N k).Nodup := by rw [heq]; exact canonFrom_nodup N k 0
      refine hnd.imp ?_
      intro c1 c2 hne
      intro x hx1 hx2
      obtain ⟨m1, _, rfl⟩ := List.mem_map.mp hx1
      obtain ⟨m2, _, heq2⟩ := List.mem_map.mp hx2
      exact hne ((Prod.mk.injEq _ _ _ _).mp heq2 |>.1).symm
  · intro c s
    rw [hform]
    simp only [List.mem_flatMap, List.mem_map, List.mem_range]
    constructor
    · rintro ⟨c', hc', m, hm, hpair⟩
      obtain ⟨hc'', hs⟩ := (Prod.mk.injEq _ _ _ _).mp hpair
      rw [hc''] at hc'
      obtain ⟨hclen, hcok⟩ := (canonFrom_mem N k 0 c).mp (by rw [← heq]; exact hc')
      refine ⟨hclen, hcok, ?_, ?_⟩
      · rw [← hs]; exact signsOfMask_length k m
      · intro x hx; rw [← hs] at hx; exact signsOfMask_mem k m x hx
    · rintro ⟨hclen, hcok, hslen, hsmem⟩
      refine ⟨c, by rw [heq]; exact (canonFrom_mem N k 0 c).mpr ⟨hclen, hcok⟩,
        maskOfSigns s, ?_, ?_⟩
      · have := maskOfSigns_lt s; rw [hslen] at this; exact this
      · rw [Prod.mk.injEq]
        refine ⟨rfl, ?_⟩
        have := signsOfMask_maskOfSigns s hsmem
        rw [hslen] at this
        exact this

/-- Witness for C3 at `N = 3, k = 2`. -/
theorem C3_witness : 1 ≤ 3 ∧ allCombos 3 2 = canonFrom 3 2 0 :=
  ⟨by decide, (C3_amended 3 2 (by decide)).1⟩

/-! ### The deduplicator: `are_same_payoff` and `remove_duplicates` (C5, C6) -/

/-- The local `struct Leg { double strike; int sign; bool is_call; }` of
`are_same_payoff`. -/
structure Leg where
  strike : ℚ
  sign : ℤ
  is_call : Bool
deriving DecidableEq

/-- The sort comparator of `are_same_payoff`: order by strike when the
strikes differ by more than `1e-6`, otherwise by sign. -/
def legLt (a b : Leg) : Bool :=
  if |a.strike - b.strike| > 1 / 1000000 then decide (a.strike < b.strike)
  else decide (a.sign < b.sign)

/-- Insertion step of the deterministic sort used to model `std::sort` with
comparator `legLt` (the source's sort is unstable and unspecified on
equal-comparing legs; insertion sort is one deterministic refinement of it,
and all claims below depend only on the sorted keys, not the tie order). -/
def insertLeg (x : Leg) : List Leg → List Leg
  | [] => [x]
  | y :: t => if legLt x y then x :: y :: t else y :: insertLeg x t

def sortLegs : List Leg → List Leg
  | [] => []
  | x :: t => insertLeg x (sortLegs t)

/-- The leg triples `(strikes[i], signs[i], is_calls[i])` of a strategy. -/
def legsOf (s : ScoredStrategy ℚ) : List Leg :=
  (s.strikes.zip (s.signs.zip s.is_calls)).map (fun x => ⟨x.1, x.2.1, x.2.2⟩)

/-- Step-3 test of `are_same_payoff` on one pair of sorted legs: strikes
within `1e-6` and equal signs. -/
def pairStrikeSignOk (p : Leg × Leg) : Bool :=
  !(decide (|p.1.strike - p.2.strike| > 1 / 1000000)) && decide (p.1.sign = p.2.sign)

/-- `StrategyScorer::are_same_payoff` (`strategy_scoring.cpp` lines 264-323):
equal leg counts; after sorting both leg lists by (strike, sign), pairwise
strikes within `1e-6` and equal signs; an even number of call/put-flag
differences; and worst-case losses within `0.05`. -/
def are_same_payoff (s1 s2 : ScoredStrategy ℚ) : Bool :=
  if s1.strikes.length ≠ s2.strikes.length then false
  else if ((sortLegs (legsOf s1)).zip (sortLegs (legsOf s2))).all pairStrikeSignOk
      = false then false
  else if (((sortLegs (legsOf s1)).zip (sortLegs (legsOf s2))).countP
      (fun p => decide (p.1.is_call ≠ p.2.is_call))) % 2 ≠ 0 then false
  else if |s1.max_loss - s2.max_loss| > 1 / 20 then false
  else true

/-- Loop of `StrategyScorer::remove_duplicates`: scan the (score-sorted)
pool, keep a strategy iff it matches none of the previously kept ones, and
stop as soon as `max_unique > 0` keepers have been collected (the break test
sits at the top of each iteration, as in the source). -/
def remove_duplicates_go (max_unique : ℤ) :
    List (ScoredStrategy ℚ) → List (ScoredStrategy ℚ) → List (ScoredStrategy ℚ)
  | [], uniques => uniques
  | strat :: rest, uniques =>
      if max_unique > 0 ∧ (uniques.length : ℤ) ≥ max_unique then uniques
      else if uniques.any (fun u => are_same_payoff strat u) then
        remove_duplicates_go max_unique rest uniques
      else remove_duplicates_go max_unique rest (uniques ++ [strat])

/-- `StrategyScorer::remove_duplicates`; `decimals` is a parameter of the
source function but is never read by its body (only by the unused
`hash_pnl_array` helper). -/
def remove_duplicates (strategies : List (ScoredStrategy ℚ))
    (decimals : ℤ) (max_unique : ℤ) : List (ScoredStrategy ℚ) :=
  remove_duplicates_go max_unique strategies []

theorem zip_self {α : Type} (l : List α) : l.zip l = l.map (fun x => (x, x)) := by
  induction l with
  | nil => rfl
  | cons x t ih => rw [List.zip_cons_cons, ih, List.map_cons]

/-- C5 (amended): two strategies with literally identical sorted leg lists
(strikes, signs and call/put flags) and worst-case losses within the `0.05`
tolerance are always judged duplicates. -/
theorem C5_amended (s1 s2 : ScoredStrategy ℚ)
    (hlen : s1.strikes.length = s2.strikes.length)
    (hsort : sortLegs (legsOf s1) = sortLegs (legsOf s2))
    (hloss : |s1.max_loss - s2.max_loss| ≤ 1 / 20) :
    are_same_payoff s1 s2 = true := by
  rw [are_same_payoff, if_neg (by omega)]
  rw [← hsort, zip_self]
  have hall : ((sortLegs (legsOf s1)).map (fun x => (x, x))).all pairStrikeSignOk = true := by
    rw [List.all_eq_true]
    intro p hp
    obtain ⟨x, _, rfl⟩ := List.mem_map.mp hp
    rw [pairStrikeSignOk]
    simp
  rw [hall]
  rw [if_neg (by simp)]
  have hcnt : (((sortLegs (legsOf s1)).map (fun x => (x, x))).countP
      (fun p => decide (p.1.is_call ≠ p.2.is_call))) = 0 := by
    rw [List.countP_eq_zero]
    intro p hp
    obtain ⟨x, _, rfl⟩ := List.mem_map.mp hp
    simp
  rw [hcnt, if_neg (by omega), if_neg (not_lt.mpr hloss)]

/-- Accepted single-leg candidate over curve `[0, 0]`: worst-loss fields 0. -/
def c5_mA : StrategyMetrics :=
  (calculate [exOption] [1] [[0, 0]] [90, 110] 100 50 50 10 5 5 0 (-1) 1
    100 105 false false false).getD mdefault

/-- The same instrument and legs, but over curve `[-1, -1]`: worst loss -1.
(In a universe holding two instruments that share strike and call/put flag
but have different P&L rows, these are two distinct valid candidates with
identical leg descriptions.) -/
def c5_mB : StrategyMetrics :=
  (calculate [exOption] [1] [[-1, -1]] [90, 110] 100 50 50 10 5 5 0 (-1) 1
    100 105 false false false).getD mdefault

def c5_sA : ScoredStrategy ℚ := bnb_store_result exCache [(0, 1)] c5_mA

def c5_sB : ScoredStrategy ℚ := bnb_store_result exCache [(0, 1)] c5_mB

/-- C5 counterexample: `c5_sA` and `c5_sB` have literally identical sorted
`(strike, sign)` leg lists and identical call/put flags, yet their stored
worst losses are 0 and -1, which differ by more than the `0.05` tolerance,
so `are_same_payoff` judges them NOT duplicates — the claim fails without a
matching-loss condition. -/
theorem C5_counterexample :
    sortLegs (legsOf c5_sA) = sortLegs (legsOf c5_sB) ∧
    (legsOf c5_sA).map (fun l => l.is_call) = (legsOf c5_sB).map (fun l => l.is_call) ∧
    are_same_payoff c5_sA c5_sB = false := by
  refine ⟨?_, ?_, ?_⟩ <;>
    norm_num [are_same_payoff, sortLegs, insertLeg, legLt, legsOf, pairStrikeSignOk,
      c5_sA, c5_sB, c5_mA, c5_mB, bnb_store_result, ScoredStrategy.zero, optAt,
      exCache, exOption, mdefault, calculate, filter_useless_sell,
      filter_same_option_buy_sell, pairsNoConflict, legConflict, sumBy,
      callCountOf, putCountOf, netShortPutOf, netShortCallOf, totalPnlCurve,
      lossScan, scanStep, scanStepPure, trackExtrema, trackBreakeven, trackPrev,
      trackProfitZone, trackLossRegion, MAX_BREAKEVEN, N_INTRA_DATES,
      avg_pnl_levrage]

/-- Witness for C5 on the pair `(c5_sA, c5_sA)` (identical strategy twice:
equal legs and equal losses). -/
theorem C5_witness :
    c5_sA.strikes.length = c5_sA.strikes.length ∧
    sortLegs (legsOf c5_sA) = sortLegs (legsOf c5_sA) ∧
    |c5_sA.max_loss - c5_sA.max_loss| ≤ 1 / 20 ∧
    are_same_payoff c5_sA c5_sA = true :=
  ⟨rfl, rfl, by norm_num, C5_amended c5_sA c5_sA rfl rfl (by norm_num)⟩

/-! ### C6: deduplication is idempotent -/

/-- The invariant produced by one `remove_duplicates` pass: every kept
strategy matches none of the strategies kept before it. -/
def DedupClean (l : List (ScoredStrategy ℚ)) : Prop :=
  List.Pairwise (fun a b => are_same_payoff b a = false) l

theorem remove_duplicates_go_length (m : ℤ) :
    ∀ (rest acc : List (ScoredStrategy ℚ)), 0 < m → (acc.length : ℤ) ≤ m →
      ((remove_duplicates_go m rest acc).length : ℤ) ≤ m := by
  intro rest
  induction rest with
  | nil => intro acc _ hacc; exact hacc
  | cons strat rest ih =>
      intro acc hm hacc
      rw [remove_duplicates_go]
      by_cases hbrk : m > 0 ∧ (acc.length : ℤ) ≥ m
      · rw [if_pos hbrk]; exact hacc
      · rw [if_neg hbrk]
        by_cases hdup : acc.any (fun u => are_same_payoff strat u)
        · rw [if_pos hdup]; exact ih acc hm hacc
        · rw [if_neg hdup]
          refine ih _ hm ?_
          have : (acc.length : ℤ) < m := by
            rcases not_and_or.mp hbrk with h | h
            · omega
            · omega
          simp only [List.length_append, List.length_singleton]
          push_cast
          omega

theorem remove_duplicates_go_clean (m : ℤ) :
    ∀ (rest acc : List (ScoredStrategy ℚ)), DedupClean acc →
      DedupClean (remove_duplicates_go m rest acc) := by
  intro rest
  induction rest with
  | nil => intro acc h; exact h
  | cons strat rest ih =>
      intro acc hacc
      rw [remove_duplicates_go]
      by_cases hbrk : m > 0 ∧ (acc.length : ℤ) ≥ m
      · rw [if_pos hbrk]; exact hacc
      · rw [if_neg hbrk]
        by_cases hdup : acc.any (fun u => are_same_payoff strat u)
        · rw [if_pos hdup]; exact ih acc hacc
        · rw [if_neg hdup]
          refine ih _ ?_
          rw [DedupClean, List.pairwise_append]
          refine ⟨hacc, List.pairwise_singleton _ _, ?_⟩
          intro a ha b hb
          rw [List.mem_singleton.mp hb]
          have hfalse : acc.any (fun u => are_same_payoff strat u) = false := by
            simpa using hdup
          simpa using List.any_eq_false.mp hfalse a ha

theorem remove_duplicates_go_of_clean (m : ℤ) :
    ∀ (w acc : List (ScoredStrategy ℚ)), DedupClean (acc ++ w) →
      (0 < m → ((acc ++ w).length : ℤ) ≤ m) →
      remove_duplicates_go m w acc = acc ++ w := by
  intro w
  induction w with
  | nil => intro acc _ _; rw [remove_duplicates_go, List.append_nil]
  | cons strat rest ih =>
      intro acc hclean hlen
      rw [remove_duplicates_go]
      have hbrk : ¬ (m > 0 ∧ (acc.length : ℤ) ≥ m) := by
        rintro ⟨hm, hge⟩
        have := hlen hm
        simp only [List.length_append, List.length_cons] at this
        push_cast at this
        omega
      rw [if_neg hbrk]
      have hnodup : acc.any (fun u => are_same_payoff strat u) = false := by
        rw [List.any_eq_false]
        intro u hu
        have hpair := (List.pairwise_append.mp hclean).2.2 u hu strat (by simp)
        simpa using hpair
      rw [hnodup]
      rw [if_neg (by simp)]
      have : acc ++ strat :: rest = (acc ++ [strat]) ++ rest := by simp
      rw [this] at hclean hlen ⊢
      exact ih (acc ++ [strat]) hclean hlen

/-- C6: deduplication is idempotent — for every pool, every `decimals` and
every `max_unique` setting, applying `remove_duplicates` to its own output
returns that output unchanged. -/
theorem C6_remove_duplicates_idempotent
    (strategies : List (ScoredStrategy ℚ)) (decimals max_unique : ℤ) :
    remove_duplicates (remove_duplicates strategies decimals max_unique)
        decimals max_unique
      = remove_duplicates strategies decimals max_unique := by
  simp only [remove_duplicates]
  have hclean : DedupClean (remove_duplicates_go max_unique strategies []) :=
    remove_duplicates_go_clean max_unique strategies [] (List.Pairwise.nil)
  have hlen : 0 < max_unique →
      (((remove_duplicates_go max_unique strategies []).length : ℤ) ≤ max_unique) :=
    fun hm => remove_duplicates_go_length max_unique strategies [] hm (by simp; omega)
  have := remove_duplicates_go_of_clean max_unique
    (remove_duplicates_go max_unique strategies []) []
    (by simpa using hclean) (by simpa using hlen)
  simpa using this

/-! ### Branch-and-bound exploration (C1)

`bnb_explore` (`generation_cpp/bindings.cpp` lines 322-453) does a
depth-first search over `(depth, start_index, partial aggregates)`. The
root-level task loop (lines 555-620) performs, for the first leg, exactly
the per-leg filters and pruning checks of `bnb_explore`'s inner loop (with
`remaining = max_legs - 1` and no prior legs, so the hedge check is vacuous)
and then explores from depth 1; it therefore coincides with running
`bnb_explore` from depth 0 with `start_idx = 0` and zero aggregates, which
is how `bnb_search` below is defined. `fuel = max_legs - depth`, so the
source's `depth >= max_legs` cutoff is `fuel = 0`, and the source's
`remaining_after = max_legs - depth - 1` is `fuel - 1`. -/

/-- `struct BnBParams`. -/
structure BnBParams where
  max_legs : ℕ
  max_premium_params : ℚ
  delta_min : ℚ
  delta_max : ℚ
  ouvert_gauche : ℤ
  ouvert_droite : ℤ
  min_premium_sell : ℚ
  max_loss_left : ℚ
  max_loss_right : ℚ
  limit_left : ℚ
  limit_right : ℚ
  premium_only : Bool
  premium_only_left : Bool
  premium_only_right : Bool
  bound_max_premium : ℚ
  bound_max_delta : ℚ
  bound_max_avg_pnl : ℚ
deriving DecidableEq

/-- The `StrategyCalculator::calculate` call of `bnb_explore` (lines
350-358): the leg prefix's option pointers, signs and P&L row pointers,
plus the cache grid and the search parameters. -/
def bnb_evaluate (cache : OptionsCache) (p : BnBParams)
    (legs : List (ℕ × ℤ)) : Option StrategyMetrics :=
  calculate (legs.map (fun l => optAt cache l.1)) (legs.map (fun l => l.2))
    (legs.map (fun l => cache.pnl_rows.getD l.1 [])) cache.prices
    cache.average_mix p.max_loss_left p.max_loss_right p.max_premium_params
    p.ouvert_gauche p.ouvert_droite p.min_premium_sell p.delta_min p.delta_max
    p.limit_left p.limit_right p.premium_only p.premium_only_left
    p.premium_only_right

/-- The (option, sign) pairs a leg list denotes in a given cache. -/
def legPairs (cache : OptionsCache) (legs : List (ℕ × ℤ)) : List (OptionData × ℤ) :=
  legs.map (fun l => (optAt cache l.1, l.2))

def premSum (cache : OptionsCache) (legs : List (ℕ × ℤ)) : ℚ :=
  sumBy (legPairs cache legs) (fun o => o.premium)

def deltaSum (cache : OptionsCache) (legs : List (ℕ × ℤ)) : ℚ :=
  sumBy (legPairs cache legs) (fun o => o.delta)

def avgSum (cache : OptionsCache) (legs : List (ℕ × ℤ)) : ℚ :=
  sumBy (legPairs cache legs) (fun o => o.average_pnl)

def nspSum (cache : OptionsCache) (legs : List (ℕ × ℤ)) : ℤ :=
  netShortPutOf (legPairs cache legs)

def nscSum (cache : OptionsCache) (legs : List (ℕ × ℤ)) : ℤ :=
  netShortCallOf (legPairs cache legs)

theorem foldl_add_eq_sum {α M : Type} [AddMonoid M] (g : α → M) :
    ∀ (l : List α) (a : M), l.foldl (fun acc x => acc + g x) a = a + (l.map g).sum := by
  intro l
  induction l with
  | nil => intro a; simp
  | cons x t ih => intro a; rw [List.foldl_cons, ih, List.map_cons, List.sum_cons, add_assoc]

theorem zip_map_pair {α β γ : Type} (l : List α) (f : α → β) (g : α → γ) :
    (l.map f).zip (l.map g) = l.map (fun x => (f x, g x)) := by
  induction l with
  | nil => rfl
  | cons x t ih => rw [List.map_cons, List.map_cons, List.map_cons, List.zip_cons_cons, ih]

theorem bnb_zip_legPairs (cache : OptionsCache) (legs : List (ℕ × ℤ)) :
    (legs.map (fun l => optAt cache l.1)).zip (legs.map (fun l => l.2))
      = legPairs cache legs :=
  zip_map_pair legs _ _

set_option maxHeartbeats 2000000 in
/-- Destructor for an accepting run of `calculate`: the filter guards it
must have passed, phrased over the zipped (option, sign) pairs. -/
theorem calculate_some_guards
    (options : List OptionData) (signs : List ℤ)
    (pnl_rows : List (List ℚ)) (prices : List ℚ)
    (am mllp mlrp maxp : ℚ) (og od : ℤ) (ms dmin dmax ll lr : ℚ)
    (po pol por : Bool) (m : StrategyMetrics)
    (h : calculate options signs pnl_rows prices am mllp mlrp maxp og od
        ms dmin dmax ll lr po pol por = some m) :
    options ≠ [] ∧ prices ≠ [] ∧
    filter_useless_sell options signs ms = true ∧
    filter_same_option_buy_sell options signs = true ∧
    netShortPutOf (options.zip signs) ≤ og ∧
    netShortCallOf (options.zip signs) ≤ od ∧
    |sumBy (options.zip signs) (fun o => o.premium)| ≤ maxp ∧
    dmin ≤ sumBy (options.zip signs) (fun o => o.delta) ∧
    sumBy (options.zip signs) (fun o => o.delta) ≤ dmax ∧
    0 ≤ sumBy (options.zip signs) (fun o => o.average_pnl) := by
  unfold calculate at h
  dsimp only at h
  split_ifs at h with h1 h2 h3 h4 h5 h6 h7 <;> try exact Option.noConfusion h
  push_neg at h1 h4 h5 h6 h7
  refine ⟨?_, ?_, by simpa using h2, by simpa using h3,
    h4.1, h4.2, h5, h6.1, h6.2, h7⟩
  · intro hn; exact h1.1 (by rw [hn]; rfl)
  · intro hn; exact h1.2 (by rw [hn]; rfl)

mutual

/-- `bnb_explore` (lines 322-453). `legs` is the filled buffer prefix
(`depth = legs.length`), `start_idx`, the partial aggregates and the running
counters mirror the parameters, and `fuel = max_legs - depth` (so `fuel = 0`
is the `depth >= max_legs` cutoff and `fuel - 1` is `remaining_after`). The
result list collects, in source order, the accepted candidates of the
subtree: the current prefix if its scalar pre-check and `calculate` accept
it, then the recursive results of each `(opt_idx, sign)` extension. -/
def bnb_explore (cache : OptionsCache) (p : BnBParams) (legs : List (ℕ × ℤ))
    (start_idx : ℕ) (pp pd pa pr pv : ℚ) (nsp nsc cc pc : ℤ) (fuel : ℕ) :
    List (ScoredStrategy ℚ) :=
  (if 1 ≤ legs.length ∧
      |pp| ≤ p.max_premium_params ∧
      p.delta_min ≤ pd ∧ pd ≤ p.delta_max ∧
      0 ≤ pa ∧
      nsp ≤ p.ouvert_gauche ∧ nsc ≤ p.ouvert_droite then
    match bnb_evaluate cache p legs with
    | some m => [bnb_store_result cache legs m]
    | none => []
  else []) ++
  (match fuel with
   | 0 => []
   | fuel' + 1 =>
     (List.range' start_idx (cache.options.length - start_idx)).flatMap fun opt_idx =>
       [(1 : ℤ), -1].flatMap fun sign =>
         bnb_try cache p legs pp pd pa pr pv nsp nsc cc pc opt_idx sign fuel')
termination_by 2 * fuel + 1

/-- The body of `bnb_explore`'s inner loop for one `(opt_idx, sign)` pair
(lines 377-451): the immediate useless-sell and same-option filters, the
aggregate updates, the four bound-based pruning tests with
`fuel' = remaining_after`, and on success the recursive descent. -/
def bnb_try (cache : OptionsCache) (p : BnBParams) (legs : List (ℕ × ℤ))
    (pp pd pa pr pv : ℚ) (nsp nsc cc pc : ℤ) (opt_idx : ℕ) (sign : ℤ)
    (fuel' : ℕ) : List (ScoredStrategy ℚ) :=
  let opt := optAt cache opt_idx
  if sign = -1 ∧ opt.premium < p.min_premium_sell then []
  else if legs.any (fun l => legConflict (optAt cache l.1, l.2) (opt, sign)) then []
  else
    let s : ℚ := (sign : ℚ)
    let new_prem := pp + s * opt.premium
    let new_delta := pd + s * opt.delta
    let new_avg := pa + s * opt.average_pnl
    let new_nsp := nsp + (if opt.is_call then 0 else if sign < 0 then 1 else -1)
    let new_nsc := nsc + (if opt.is_call then (if sign < 0 then 1 else -1) else 0)
    if |new_prem| > p.max_premium_params + (fuel' : ℚ) * p.bound_max_premium then []
    else if new_delta + (fuel' : ℚ) * p.bound_max_delta < p.delta_min then []
    else if new_delta - (fuel' : ℚ) * p.bound_max_delta > p.delta_max then []
    else if new_avg + (fuel' : ℚ) * p.bound_max_avg_pnl < 0 then []
    else if new_nsp - (fuel' : ℤ) > p.ouvert_gauche then []
    else if new_nsc - (fuel' : ℤ) > p.ouvert_droite then []
    else
      bnb_explore cache p (legs ++ [(opt_idx, sign)]) opt_idx
        new_prem new_delta new_avg (pr + s * opt.roll)
        (pv + s * opt.implied_volatility) new_nsp new_nsc
        (cc + if opt.is_call then 1 else 0)
        (pc + if opt.is_call then 0 else 1) fuel'
termination_by 2 * fuel' + 2

end

/-- The `BnBParams` setup of `process_combinations_batch_with_multi_scoring`
(lines 516-544): the user parameters plus the three pruning bounds folded
over the option universe. Note `bound_max_premium` folds the SIGNED premium
from 0 (no `std::abs`), unlike the other two bounds. -/
def bnb_params (cache : OptionsCache) (max_legs : ℕ)
    (mll mlr maxp : ℚ) (og od : ℤ) (ms dmin dmax ll lr : ℚ)
    (po pol por : Bool) : BnBParams :=
  { max_legs := max_legs
    max_premium_params := maxp
    delta_min := dmin
    delta_max := dmax
    ouvert_gauche := og
    ouvert_droite := od
    min_premium_sell := ms
    max_loss_left := mll
    max_loss_right := mlr
    limit_left := ll
    limit_right := lr
    premium_only := po
    premium_only_left := pol
    premium_only_right := por
    bound_max_premium := cache.options.foldl (fun b o => max b o.premium) 0
    bound_max_delta := cache.options.foldl (fun b o => max b |o.delta|) 0
    bound_max_avg_pnl := cache.options.foldl (fun b o => max b |o.average_pnl|) 0 }

/-- The complete branch-and-bound generation phase (lines 555-621): the
root task loop over `(opt_idx, sign)` coincides, check for check, with
`bnb_explore` at depth 0 (empty prefix, `start_idx = 0`, zero aggregates,
`fuel = max_legs`): the depth-0 evaluation is skipped by its
`1 ≤ legs.length` guard, the root useless-sell filter and the root pruning
tests with `remaining = max_legs - 1` are those of `bnb_try`, the
same-option filter is vacuous on an empty prefix, and the root then
explores from depth 1 exactly as `bnb_try` recurses. -/
def bnb_search (cache : OptionsCache) (max_legs : ℕ)
    (mll mlr maxp : ℚ) (og od : ℤ) (ms dmin dmax ll lr : ℚ)
    (po pol por : Bool) : List (ScoredStrategy ℚ) :=
  bnb_explore cache (bnb_params cache max_legs mll mlr maxp og od ms dmin dmax ll lr po pol por)
    [] 0 0 0 0 0 0 0 0 0 0 max_legs

/-- The exhaustive generation phase of the older variant
(`src/myproject/strategy/cpp/bindings.cpp`,
`process_combinations_batch_with_scoring` lines 125-339): for each leg
count `k = 1..max_legs`, every non-decreasing index combination crossed
with every sign mask, each candidate evaluated by the shared
`StrategyCalculator::calculate` filter chain and, when accepted, stored
with the same fields. To compare the two generation modes over identical
filters, the evaluation and storage are the shared `bnb_evaluate` /
`bnb_store_result` used with the same parameter record. -/
def exhaustive_search (cache : OptionsCache) (max_legs : ℕ)
    (mll mlr maxp : ℚ) (og od : ℤ) (ms dmin dmax ll lr : ℚ)
    (po pol por : Bool) : List (ScoredStrategy ℚ) :=
  (List.range' 1 max_legs).flatMap fun k =>
    (exhaustiveTasks cache.options.length k).flatMap fun cm =>
      let legs := cm.1.zip (signsOfMask k cm.2)
      match bnb_evaluate cache
          (bnb_params cache max_legs mll mlr maxp og od ms dmin dmax ll lr po pol por)
          legs with
      | some m => [bnb_store_result cache legs m]
      | none => []

/-- C1 counterexample universe: two call options at distinct strikes, both
with premium `-10` (premia are signed inputs; nothing in the pipeline
forbids negative ones). -/
def c1OptA : OptionData :=
  { premium := -10, delta := 0, implied_volatility := 0, average_pnl := 0,
    strike := 100, roll := 0, is_call := true,
    intra_life_prices := [], intra_life_pnl := [] }

def c1OptB : OptionData :=
  { c1OptA with strike := 200 }

def c1Cache : OptionsCache :=
  { options := [c1OptA, c1OptB], pnl_rows := [[0], [0]], prices := [100],
    mixture := [0], average_mix := 100, valid := true }

theorem c1_options : c1Cache.options = [c1OptA, c1OptB] := rfl

theorem c1_prices : c1Cache.prices = [100] := rfl

theorem c1_average_mix : c1Cache.average_mix = 100 := rfl

theorem optAt_c1 (i : ℕ) :
    optAt c1Cache i = if i = 0 then c1OptA else if i = 1 then c1OptB else default := by
  match i with
  | 0 => rfl
  | 1 => rfl
  | n + 2 => rfl

theorem c1_rows (i : ℕ) :
    c1Cache.pnl_rows.getD i [] = if i ≤ 1 then [0] else [] := by
  match i with
  | 0 => rfl
  | 1 => rfl
  | n + 2 => rfl

set_option maxHeartbeats 4000000 in
/-- C1 counterexample: with both premia `-10`, `bound_max_premium =
max(0, -10, -10) = 0` (the fold takes the SIGNED premium, so it understates
`max |premium|`), and with `max_premium_params = 1` every first leg fails the
root pruning test `|∓10| > 1 + 1·0`; branch-and-bound returns nothing. The
exhaustive driver, running the very same `calculate` filter chain, accepts
the two-leg candidates `(indices [0,1], signs [1,-1])` and `([0,1],[-1,1])`,
whose net premium is `0`. So the two modes do not produce the same candidate
set, and the pruning bound does discard a subtree containing a valid leaf. -/
theorem C1_counterexample :
    bnb_search c1Cache 2 100 100 1 5 5 (-100) (-1) 1 0 1000 false false false = [] ∧
    (exhaustive_search c1Cache 2 100 100 1 5 5 (-100) (-1) 1 0 1000
        false false false).map (fun s => (s.option_indices, s.signs))
      = [([0, 1], [1, -1]), ([0, 1], [-1, 1])] := by
  constructor
  · norm_num [bnb_search, bnb_explore, bnb_try, bnb_params, bnb_evaluate,
      c1Cache, c1OptA, c1OptB, optAt, List.range']
  · norm_num +decide [exhaustive_search, exhaustiveTasks, allCombos, combosAux,
      next_combination, signsOfMask, Nat.testBit, bnb_params, bnb_evaluate,
      c1_options, c1_prices, c1_average_mix, optAt_c1, c1_rows,
      c1OptA, c1OptB, List.range', List.range_succ,
      List.range_zero, List.replicate_succ, List.replicate_zero, calculate,
      filter_useless_sell, filter_same_option_buy_sell, pairsNoConflict,
      legConflict, sumBy, callCountOf, putCountOf, netShortPutOf,
      netShortCallOf, totalPnlCurve, lossScan, scanStep, scanStepPure,
      trackExtrema, trackBreakeven, trackPrev, trackProfitZone,
      trackLossRegion, avg_pnl_levrage, N_INTRA_DATES, bnb_store_result]

/-! #### Aggregate bookkeeping for the partial sums carried by `bnb_explore` -/

theorem sumBy_eq_sum (l : List (OptionData × ℤ)) (f : OptionData → ℚ) :
    sumBy l f = (l.map (fun os => (os.2 : ℚ) * f os.1)).sum := by
  rw [sumBy, foldl_add_eq_sum, zero_add]

theorem sumBy_append (l1 l2 : List (OptionData × ℤ)) (f : OptionData → ℚ) :
    sumBy (l1 ++ l2) f = sumBy l1 f + sumBy l2 f := by
  rw [sumBy_eq_sum, sumBy_eq_sum, sumBy_eq_sum, List.map_append, List.sum_append]

theorem netShortPutOf_eq_sum (l : List (OptionData × ℤ)) :
    netShortPutOf l
      = (l.map (fun os => if os.1.is_call then 0 else if os.2 < 0 then (1 : ℤ) else -1)).sum := by
  rw [netShortPutOf, foldl_add_eq_sum, zero_add]

theorem netShortCallOf_eq_sum (l : List (OptionData × ℤ)) :
    netShortCallOf l
      = (l.map (fun os => if os.1.is_call then (if os.2 < 0 then (1 : ℤ) else -1) else 0)).sum := by
  rw [netShortCallOf, foldl_add_eq_sum, zero_add]

theorem netShortPutOf_append (l1 l2 : List (OptionData × ℤ)) :
    netShortPutOf (l1 ++ l2) = netShortPutOf l1 + netShortPutOf l2 := by
  rw [netShortPutOf_eq_sum, netShortPutOf_eq_sum, netShortPutOf_eq_sum,
    List.map_append, List.sum_append]

theorem netShortCallOf_append (l1 l2 : List (OptionData × ℤ)) :
    netShortCallOf (l1 ++ l2) = netShortCallOf l1 + netShortCallOf l2 := by
  rw [netShortCallOf_eq_sum, netShortCallOf_eq_sum, netShortCallOf_eq_sum,
    List.map_append, List.sum_append]

theorem legPairs_append (cache : OptionsCache) (l1 l2 : List (ℕ × ℤ)) :
    legPairs cache (l1 ++ l2) = legPairs cache l1 ++ legPairs cache l2 :=
  List.map_append _ _ _

theorem premSum_append (cache : OptionsCache) (l1 l2 : List (ℕ × ℤ)) :
    premSum cache (l1 ++ l2) = premSum cache l1 + premSum cache l2 := by
  rw [premSum, legPairs_append, sumBy_append]; rfl

theorem deltaSum_append (cache : OptionsCache) (l1 l2 : List (ℕ × ℤ)) :
    deltaSum cache (l1 ++ l2) = deltaSum cache l1 + deltaSum cache l2 := by
  rw [deltaSum, legPairs_append, sumBy_append]; rfl

theorem avgSum_append (cache : OptionsCache) (l1 l2 : List (ℕ × ℤ)) :
    avgSum cache (l1 ++ l2) = avgSum cache l1 + avgSum cache l2 := by
  rw [avgSum, legPairs_append, sumBy_append]; rfl

theorem nspSum_append (cache : OptionsCache) (l1 l2 : List (ℕ × ℤ)) :
    nspSum cache (l1 ++ l2) = nspSum cache l1 + nspSum cache l2 := by
  rw [nspSum, legPairs_append, netShortPutOf_append]; rfl

theorem nscSum_append (cache : OptionsCache) (l1 l2 : List (ℕ × ℤ)) :
    nscSum cache (l1 ++ l2) = nscSum cache l1 + nscSum cache l2 := by
  rw [nscSum, legPairs_append, netShortCallOf_append]; rfl

theorem premSum_snoc (cache : OptionsCache) (legs : List (ℕ × ℤ)) (i : ℕ) (s : ℤ) :
    premSum cache (legs ++ [(i, s)])
      = premSum cache legs + (s : ℚ) * (optAt cache i).premium := by
  rw [premSum_append]
  congr 1
  rw [premSum, sumBy_eq_sum]
  simp [legPairs]

theorem deltaSum_snoc (cache : OptionsCache) (legs : List (ℕ × ℤ)) (i : ℕ) (s : ℤ) :
    deltaSum cache (legs ++ [(i, s)])
      = deltaSum cache legs + (s : ℚ) * (optAt cache i).delta := by
  rw [deltaSum_append]
  congr 1
  rw [deltaSum, sumBy_eq_sum]
  simp [legPairs]

theorem avgSum_snoc (cache : OptionsCache) (legs : List (ℕ × ℤ)) (i : ℕ) (s : ℤ) :
    avgSum cache (legs ++ [(i, s)])
      = avgSum cache legs + (s : ℚ) * (optAt cache i).average_pnl := by
  rw [avgSum_append]
  congr 1
  rw [avgSum, sumBy_eq_sum]
  simp [legPairs]

theorem nspSum_snoc (cache : OptionsCache) (legs : List (ℕ × ℤ)) (i : ℕ) (s : ℤ) :
    nspSum cache (legs ++ [(i, s)])
      = nspSum cache legs
        + (if (optAt cache i).is_call then 0 else if s < 0 then 1 else -1) := by
  rw [nspSum_append]
  congr 1
  rw [nspSum, netShortPutOf_eq_sum]
  simp [legPairs]

theorem nscSum_snoc (cache : OptionsCache) (legs : List (ℕ × ℤ)) (i : ℕ) (s : ℤ) :
    nscSum cache (legs ++ [(i, s)])
      = nscSum cache legs
        + (if (optAt cache i).is_call then (if s < 0 then 1 else -1) else 0) := by
  rw [nscSum_append]
  congr 1
  rw [nscSum, netShortCallOf_eq_sum]
  simp [legPairs]

/-! #### Consequences of the filter guards for individual legs -/

theorem filter_useless_sell_mem (options : List OptionData) (signs : List ℤ) (ms : ℚ)
    (h : filter_useless_sell options signs ms = true) :
    ∀ pr ∈ options.zip signs, pr.2 < 0 → ¬ pr.1.premium < ms := by
  intro pr hpr hneg hlt
  have hall := List.all_eq_true.mp h pr hpr
  simp [hneg, hlt] at hall

theorem pairsNoConflict_split :
    ∀ (l1 : List (OptionData × ℤ)) (b : OptionData × ℤ) (l2 : List (OptionData × ℤ)),
      pairsNoConflict (l1 ++ b :: l2) = true → ∀ a ∈ l1, legConflict a b = false := by
  intro l1
  induction l1 with
  | nil => intro b l2 _ a ha; exact absurd ha (List.not_mem_nil a)
  | cons x t ih =>
      intro b l2 h a ha
      rw [List.cons_append, pairsNoConflict, Bool.and_eq_true] at h
      rcases List.mem_cons.mp ha with rfl | hat
      · have hb := List.all_eq_true.mp h.1 b (by simp)
        simpa using hb
      · exact ih b l2 h.2 a hat

/-! #### okTuple bookkeeping for the nondecreasing index prefixes -/

theorem okTuple_snoc (N : ℕ) :
    ∀ (xs : List ℕ) (lo y : ℕ), okTuple N lo xs = true →
      (∀ i ∈ xs, i ≤ y) → lo ≤ y → y < N → okTuple N lo (xs ++ [y]) = true := by
  intro xs
  induction xs with
  | nil =>
      intro lo y _ _ h1 h2
      exact (okTuple_cons N lo y []).mpr ⟨h1, h2, rfl⟩
  | cons a t ih =>
      intro lo y h hle hlo hy
      obtain ⟨h1, h2, h3⟩ := (okTuple_cons N lo a t).mp h
      rw [List.cons_append]
      exact (okTuple_cons N lo a _).mpr
        ⟨h1, h2, ih a y h3 (fun i hi => hle i (by simp [hi])) (hle a (by simp)) hy⟩

theorem okTuple_all_lt (N : ℕ) :
    ∀ (xs : List ℕ) (lo : ℕ), okTuple N lo xs = true → ∀ i ∈ xs, i < N := by
  intro xs
  induction xs with
  | nil => intro lo _ i hi; exact absurd hi (List.not_mem_nil i)
  | cons a t ih =>
      intro lo h i hi
      obtain ⟨_, h2, h3⟩ := (okTuple_cons N lo a t).mp h
      rcases List.mem_cons.mp hi with rfl | hit
      · exact h2
      · exact ih a h3 i hit

theorem optAt_mem (cache : OptionsCache) (i : ℕ) (h : i < cache.options.length) :
    optAt cache i ∈ cache.options := by
  rw [optAt, List.getD_eq_getElem _ _ h]
  exact List.getElem_mem h

/-! #### Conservative bounds on the tail sums, used to justify the pruning -/

theorem abs_map_sum_le {α : Type} (g : α → ℚ) (B : ℚ) :
    ∀ l : List α, (∀ x ∈ l, |g x| ≤ B) → |(l.map g).sum| ≤ l.length * B := by
  intro l
  induction l with
  | nil => intro _; simp
  | cons x t ih =>
      intro h
      rw [List.map_cons, List.sum_cons, List.length_cons]
      have h1 : |g x| ≤ B := h x (by simp)
      have h2 : |(t.map g).sum| ≤ t.length * B := ih (fun a ha => h a (by simp [ha]))
      have h3 : |g x + (t.map g).sum| ≤ |g x| + |(t.map g).sum| := abs_add _ _
      push_cast
      nlinarith [abs_nonneg (g x)]

theorem neg_length_le_int_sum {α : Type} (g : α → ℤ) :
    ∀ l : List α, (∀ x ∈ l, -1 ≤ g x) → -(l.length : ℤ) ≤ (l.map g).sum := by
  intro l
  induction l with
  | nil => intro _; simp
  | cons x t ih =>
      intro h
      rw [List.map_cons, List.sum_cons, List.length_cons]
      have h1 : -1 ≤ g x := h x (by simp)
      have h2 : -(t.length : ℤ) ≤ (t.map g).sum := ih (fun a ha => h a (by simp [ha]))
      push_cast
      omega

/-! #### Soundness and completeness of the branch-and-bound search -/

/-- A candidate leg list the generation phase can legitimately emit: between
1 and `max_legs` legs, nondecreasing in-range indices, `±1` signs, and
accepted by the shared `calculate` filter chain. -/
def ValidCand (cache : OptionsCache) (p : BnBParams) (legs : List (ℕ × ℤ)) : Prop :=
  1 ≤ legs.length ∧ legs.length ≤ p.max_legs ∧
  okTuple cache.options.length 0 (legs.map (fun l => l.1)) = true ∧
  (∀ l ∈ legs, l.2 = 1 ∨ l.2 = -1) ∧
  (bnb_evaluate cache p legs).isSome

set_option maxHeartbeats 2000000 in
theorem bnb_explore_sound (cache : OptionsCache) (p : BnBParams) :
    ∀ (fuel : ℕ) (legs : List (ℕ × ℤ)) (start_idx : ℕ) (pp pd pa pr pv : ℚ)
      (nsp nsc cc pc : ℤ),
      legs.length + fuel = p.max_legs →
      okTuple cache.options.length 0 (legs.map (fun l => l.1)) = true →
      (∀ l ∈ legs, l.2 = 1 ∨ l.2 = -1) →
      (∀ l ∈ legs, l.1 ≤ start_idx) →
      ∀ x ∈ bnb_explore cache p legs start_idx pp pd pa pr pv nsp nsc cc pc fuel,
        ∃ legs' m, x = bnb_store_result cache legs' m ∧
          bnb_evaluate cache p legs' = some m ∧ ValidCand cache p legs' := by
  intro fuel
  induction fuel with
  | zero =>
      intro legs start_idx pp pd pa pr pv nsp nsc cc pc hfuel hok hsg hst x hx
      rw [bnb_explore] at hx
      rw [List.mem_append] at hx
      rcases hx with hx | hx
      · by_cases hcond : 1 ≤ legs.length ∧ |pp| ≤ p.max_premium_params ∧
            p.delta_min ≤ pd ∧ pd ≤ p.delta_max ∧ 0 ≤ pa ∧
            nsp ≤ p.ouvert_gauche ∧ nsc ≤ p.ouvert_droite
        · rw [if_pos hcond] at hx
          cases heval : bnb_evaluate cache p legs with
          | none => rw [heval] at hx; exact absurd hx (List.not_mem_nil x)
          | some m =>
              rw [heval] at hx
              refine ⟨legs, m, List.mem_singleton.mp hx, heval,
                hcond.1, by omega, hok, hsg, by rw [heval]; rfl⟩
        · rw [if_neg hcond] at hx; exact absurd hx (List.not_mem_nil x)
      · exact absurd hx (List.not_mem_nil x)
  | succ fuel' ih =>
      intro legs start_idx pp pd pa pr pv nsp nsc cc pc hfuel hok hsg hst x hx
      rw [bnb_explore] at hx
      rw [List.mem_append] at hx
      rcases hx with hx | hx
      · by_cases hcond : 1 ≤ legs.length ∧ |pp| ≤ p.max_premium_params ∧
            p.delta_min ≤ pd ∧ pd ≤ p.delta_max ∧ 0 ≤ pa ∧
            nsp ≤ p.ouvert_gauche ∧ nsc ≤ p.ouvert_droite
        · rw [if_pos hcond] at hx
          cases heval : bnb_evaluate cache p legs with
          | none => rw [heval] at hx; exact absurd hx (List.not_mem_nil x)
          | some m =>
              rw [heval] at hx
              refine ⟨legs, m, List.mem_singleton.mp hx, heval,
                hcond.1, by omega, hok, hsg, by rw [heval]; rfl⟩
        · rw [if_neg hcond] at hx; exact absurd hx (List.not_mem_nil x)
      · obtain ⟨oi, hoi, hx⟩ := List.mem_flatMap.mp hx
        obtain ⟨si, hsi, hx⟩ := List.mem_flatMap.mp hx
        have hoi' := List.mem_range'_1.mp hoi
        have hoiN : oi < cache.options.length := by omega
        have hsioi : start_idx ≤ oi := hoi'.1
        have hsi' : si = 1 ∨ si = -1 := by
          rcases List.mem_cons.mp hsi with rfl | hsi
          · exact Or.inl rfl
          · rcases List.mem_cons.mp hsi with rfl | hsi
            · exact Or.inr rfl
            · exact absurd hsi (List.not_mem_nil si)
        rw [bnb_try] at hx
        dsimp only at hx
        split_ifs at hx <;> try exact absurd hx (List.not_mem_nil x)
        all_goals
          exact ih (legs ++ [(oi, si)]) oi _ _ _ _ _ _ _ _ _
            (by rw [List.length_append]; simp only [List.length_singleton]; omega)
            (by
              rw [List.map_append]
              exact okTuple_snoc cache.options.length _ 0 oi hok
                (fun i hi => by
                  obtain ⟨l, hl, rfl⟩ := List.mem_map.mp hi
                  exact le_trans (hst l hl) hsioi)
                (by omega) hoiN)
            (fun l hl => by
              rcases List.mem_append.mp hl with hl | hl
              · exact hsg l hl
              · rw [List.mem_singleton.mp hl]; exact hsi')
            (fun l hl => by
              rcases List.mem_append.mp hl with hl | hl
              · exact le_trans (hst l hl) hsioi
              · rw [List.mem_singleton.mp hl])
            x hx

theorem tail_abs_bound (cache : OptionsCache) (ext : List (ℕ × ℤ))
    (f : OptionData → ℚ) (B : ℚ)
    (hlt : ∀ l ∈ ext, l.1 < cache.options.length)
    (hsg : ∀ l ∈ ext, l.2 = 1 ∨ l.2 = -1)
    (hB : ∀ o ∈ cache.options, |f o| ≤ B) :
    |sumBy (legPairs cache ext) f| ≤ (ext.length : ℚ) * B := by
  rw [sumBy_eq_sum]
  have h := abs_map_sum_le (fun os : OptionData × ℤ => (os.2 : ℚ) * f os.1) B
    (legPairs cache ext) ?_
  · rw [legPairs, List.length_map] at h
    exact h
  · intro x hx
    obtain ⟨l, hl, rfl⟩ := List.mem_map.mp hx
    rw [abs_mul]
    have h1 : |((l.2 : ℚ))| = 1 := by
      rcases hsg l hl with h | h <;> rw [h] <;> norm_num
    rw [h1, one_mul]
    exact hB _ (optAt_mem cache l.1 (hlt l hl))

theorem tail_nsp_bound (cache : OptionsCache) (ext : List (ℕ × ℤ)) :
    -(ext.length : ℤ) ≤ nspSum cache ext := by
  rw [nspSum, netShortPutOf_eq_sum]
  have h := neg_length_le_int_sum
    (fun os : OptionData × ℤ => if os.1.is_call then 0 else if os.2 < 0 then (1 : ℤ) else -1)
    (legPairs cache ext) ?_
  · rw [legPairs, List.length_map] at h
    exact h
  · intro x _
    dsimp only
    split_ifs <;> omega

theorem tail_nsc_bound (cache : OptionsCache) (ext : List (ℕ × ℤ)) :
    -(ext.length : ℤ) ≤ nscSum cache ext := by
  rw [nscSum, netShortCallOf_eq_sum]
  have h := neg_length_le_int_sum
    (fun os : OptionData × ℤ => if os.1.is_call then (if os.2 < 0 then (1 : ℤ) else -1) else 0)
    (legPairs cache ext) ?_
  · rw [legPairs, List.length_map] at h
    exact h
  · intro x _
    dsimp only
    split_ifs <;> omega

set_option maxHeartbeats 4000000 in
/-- Completeness of the pruning, under the amended hypothesis that every
premium is nonnegative (so that the signed-fold `bound_max_premium` really
bounds `|premium|`): if extending the current prefix by `ext` yields a
candidate accepted by `calculate`, then the stored result of that candidate
is among the results of `bnb_explore` from the current node — no pruning
test can cut the branch leading to it. -/
theorem bnb_explore_complete (cache : OptionsCache) (p : BnBParams)
    (hprem : ∀ o ∈ cache.options, 0 ≤ o.premium)
    (hBP : ∀ o ∈ cache.options, o.premium ≤ p.bound_max_premium)
    (hBP0 : 0 ≤ p.bound_max_premium)
    (hBD : ∀ o ∈ cache.options, |o.delta| ≤ p.bound_max_delta)
    (hBD0 : 0 ≤ p.bound_max_delta)
    (hBA : ∀ o ∈ cache.options, |o.average_pnl| ≤ p.bound_max_avg_pnl)
    (hBA0 : 0 ≤ p.bound_max_avg_pnl) :
    ∀ (ext legs : List (ℕ × ℤ)) (start_idx : ℕ) (pr pv : ℚ) (cc pc : ℤ) (fuel : ℕ),
      legs.length + fuel = p.max_legs →
      legs.length + ext.length ≤ p.max_legs →
      1 ≤ legs.length + ext.length →
      okTuple cache.options.length start_idx (ext.map (fun l => l.1)) = true →
      (∀ l ∈ ext, l.2 = 1 ∨ l.2 = -1) →
      ∀ m, bnb_evaluate cache p (legs ++ ext) = some m →
        bnb_store_result cache (legs ++ ext) m ∈
          bnb_explore cache p legs start_idx
            (premSum cache legs) (deltaSum cache legs) (avgSum cache legs) pr pv
            (nspSum cache legs) (nscSum cache legs) cc pc fuel := by
  intro ext
  induction ext with
  | nil =>
      intro legs start_idx pr pv cc pc fuel hfuel hcap hne hok hsg m hm
      rw [List.append_nil] at hm ⊢
      have hg := calculate_some_guards _ _ _ _ _ _ _ _ _ _ _ _ _ _ _ _ _ _ m hm
      rw [bnb_zip_legPairs] at hg
      cases fuel with
      | zero =>
          rw [bnb_explore]
          refine List.mem_append_left _ ?_
          rw [if_pos ⟨by simpa using hne, hg.2.2.2.2.2.2.1, hg.2.2.2.2.2.2.2.1,
            hg.2.2.2.2.2.2.2.2.1, hg.2.2.2.2.2.2.2.2.2, hg.2.2.2.2.1, hg.2.2.2.2.2.1⟩, hm]
          exact List.mem_singleton.mpr rfl
      | succ f' =>
          rw [bnb_explore]
          refine List.mem_append_left _ ?_
          rw [if_pos ⟨by simpa using hne, hg.2.2.2.2.2.2.1, hg.2.2.2.2.2.2.2.1,
            hg.2.2.2.2.2.2.2.2.1, hg.2.2.2.2.2.2.2.2.2, hg.2.2.2.2.1, hg.2.2.2.2.2.1⟩, hm]
          exact List.mem_singleton.mpr rfl
  | cons hd ext' ih =>
      obtain ⟨oi, si⟩ := hd
      intro legs start_idx pr pv cc pc fuel hfuel hcap hne hok hsg m hm
      rw [List.map_cons] at hok
      obtain ⟨hstart_oi, hoiN, hext'ok⟩ := (okTuple_cons _ _ _ _).mp hok
      have hsi : si = 1 ∨ si = -1 := hsg (oi, si) (by simp)
      have hexts : ∀ l ∈ ext', l.2 = 1 ∨ l.2 = -1 := fun l hl => hsg l (by simp [hl])
      have hextlt : ∀ l ∈ ext', l.1 < cache.options.length :=
        fun l hl => okTuple_all_lt _ _ _ hext'ok l.1 (List.mem_map.mpr ⟨l, hl, rfl⟩)
      simp only [List.length_cons] at hcap hne
      cases fuel with
      | zero => exact absurd hfuel (by omega)
      | succ f' =>
        have hsplit : legs ++ (oi, si) :: ext' = (legs ++ [(oi, si)]) ++ ext' := by
          rw [List.append_assoc]; rfl
        have hg := calculate_some_guards _ _ _ _ _ _ _ _ _ _ _ _ _ _ _ _ _ _ m hm
        rw [bnb_zip_legPairs] at hg
        have hlenext : (ext'.length : ℚ) ≤ (f' : ℚ) := by
          have h : ext'.length ≤ f' := by omega
          exact_mod_cast h
        have habsP : |premSum cache ext'| ≤ (f' : ℚ) * p.bound_max_premium := by
          refine le_trans (tail_abs_bound cache ext' _ p.bound_max_premium hextlt hexts ?_)
            (mul_le_mul_of_nonneg_right hlenext hBP0)
          intro o ho
          rw [abs_of_nonneg (hprem o ho)]
          exact hBP o ho
        have habsD : |deltaSum cache ext'| ≤ (f' : ℚ) * p.bound_max_delta :=
          le_trans (tail_abs_bound cache ext' _ p.bound_max_delta hextlt hexts hBD)
            (mul_le_mul_of_nonneg_right hlenext hBD0)
        have habsA : |avgSum cache ext'| ≤ (f' : ℚ) * p.bound_max_avg_pnl :=
          le_trans (tail_abs_bound cache ext' _ p.bound_max_avg_pnl hextlt hexts hBA)
            (mul_le_mul_of_nonneg_right hlenext hBA0)
        have hznsp : -(f' : ℤ) ≤ nspSum cache ext' := by
          have h1 := tail_nsp_bound cache ext'
          have h2 : (ext'.length : ℤ) ≤ (f' : ℤ) := by
            exact_mod_cast (by omega : ext'.length ≤ f')
          omega
        have hznsc : -(f' : ℤ) ≤ nscSum cache ext' := by
          have h1 := tail_nsc_bound cache ext'
          have h2 : (ext'.length : ℤ) ≤ (f' : ℤ) := by
            exact_mod_cast (by omega : ext'.length ≤ f')
          omega
        have hP' : |premSum cache (legs ++ [(oi, si)])|
            ≤ p.max_premium_params + (f' : ℚ) * p.bound_max_premium := by
          have h7 : |premSum cache (legs ++ (oi, si) :: ext')| ≤ p.max_premium_params :=
            hg.2.2.2.2.2.2.1
          rw [hsplit, premSum_append] at h7
          have ha := abs_le.mp h7
          have hb := abs_le.mp habsP
          exact abs_le.mpr ⟨by linarith, by linarith⟩
        have hD1 : p.delta_min
            ≤ deltaSum cache (legs ++ [(oi, si)]) + (f' : ℚ) * p.bound_max_delta := by
          have h8 : p.delta_min ≤ deltaSum cache (legs ++ (oi, si) :: ext') :=
            hg.2.2.2.2.2.2.2.1
          rw [hsplit, deltaSum_append] at h8
          have hb := abs_le.mp habsD
          linarith
        have hD2 : deltaSum cache (legs ++ [(oi, si)]) - (f' : ℚ) * p.bound_max_delta
            ≤ p.delta_max := by
          have h9 : deltaSum cache (legs ++ (oi, si) :: ext') ≤ p.delta_max :=
            hg.2.2.2.2.2.2.2.2.1
          rw [hsplit, deltaSum_append] at h9
          have hb := abs_le.mp habsD
          linarith
        have hA1 : (0 : ℚ)
            ≤ avgSum cache (legs ++ [(oi, si)]) + (f' : ℚ) * p.bound_max_avg_pnl := by
          have h10 : (0 : ℚ) ≤ avgSum cache (legs ++ (oi, si) :: ext') :=
            hg.2.2.2.2.2.2.2.2.2
          rw [hsplit, avgSum_append] at h10
          have hb := abs_le.mp habsA
          linarith
        have hN1 : nspSum cache (legs ++ [(oi, si)]) - (f' : ℤ) ≤ p.ouvert_gauche := by
          have h5 : nspSum cache (legs ++ (oi, si) :: ext') ≤ p.ouvert_gauche :=
            hg.2.2.2.2.1
          rw [hsplit, nspSum_append] at h5
          omega
        have hN2 : nscSum cache (legs ++ [(oi, si)]) - (f' : ℤ) ≤ p.ouvert_droite := by
          have h6 : nscSum cache (legs ++ (oi, si) :: ext') ≤ p.ouvert_droite :=
            hg.2.2.2.2.2.1
          rw [hsplit, nscSum_append] at h6
          omega
        have hns : ¬ (si = -1 ∧ (optAt cache oi).premium < p.min_premium_sell) := by
          rintro ⟨hsi1, hlt⟩
          have hpmem : (optAt cache oi, si)
              ∈ ((legs ++ (oi, si) :: ext').map (fun l => optAt cache l.1)).zip
                  ((legs ++ (oi, si) :: ext').map (fun l => l.2)) := by
            rw [bnb_zip_legPairs]
            exact List.mem_map.mpr ⟨(oi, si), by simp, rfl⟩
          exact filter_useless_sell_mem _ _ _ hg.2.2.1 _ hpmem
            (by rw [hsi1]; norm_num) hlt
        have hcf : (legs.any fun l =>
            legConflict (optAt cache l.1, l.2) (optAt cache oi, si)) = false := by
          rw [List.any_eq_false]
          intro l hl
          have h4 : pairsNoConflict (legPairs cache (legs ++ (oi, si) :: ext')) = true := by
            have h := hg.2.2.2.1
            rw [filter_same_option_buy_sell, bnb_zip_legPairs] at h
            exact h
          have hLP : legPairs cache (legs ++ (oi, si) :: ext')
              = legPairs cache legs ++ (optAt cache oi, si) :: legPairs cache ext' := by
            rw [legPairs_append]; rfl
          rw [hLP] at h4
          have hno := pairsNoConflict_split _ _ _ h4 (optAt cache l.1, l.2)
            (List.mem_map.mpr ⟨l, hl, rfl⟩)
          simp [hno]
        rw [premSum_snoc cache legs oi si] at hP'
        rw [deltaSum_snoc cache legs oi si] at hD1 hD2
        rw [avgSum_snoc cache legs oi si] at hA1
        rw [nspSum_snoc cache legs oi si] at hN1
        rw [nscSum_snoc cache legs oi si] at hN2
        rw [bnb_explore]
        refine List.mem_append_right _ ?_
        refine List.mem_flatMap.mpr ⟨oi, List.mem_range'_1.mpr ⟨hstart_oi, by omega⟩, ?_⟩
        refine List.mem_flatMap.mpr ⟨si, by rcases hsi with h | h <;> simp [h], ?_⟩
        rw [bnb_try]
        dsimp only
        rw [if_neg hns, if_neg (by simp [hcf]), if_neg (not_lt.mpr hP'),
          if_neg (not_lt.mpr hD1), if_neg (not_lt.mpr hD2), if_neg (not_lt.mpr hA1),
          if_neg (not_lt.mpr hN1), if_neg (not_lt.mpr hN2)]
        have hm' : bnb_evaluate cache p ((legs ++ [(oi, si)]) ++ ext') = some m := by
          rw [← hsplit]; exact hm
        have hrec := ih (legs ++ [(oi, si)]) oi
          (pr + (si : ℚ) * (optAt cache oi).roll)
          (pv + (si : ℚ) * (optAt cache oi).implied_volatility)
          (cc + if (optAt cache oi).is_call then 1 else 0)
          (pc + if (optAt cache oi).is_call then 0 else 1) f'
          (by simp only [List.length_append, List.length_singleton]; omega)
          (by simp only [List.length_append, List.length_singleton]; omega)
          (by simp only [List.length_append, List.length_singleton]; omega)
          hext'ok hexts m hm'
        rw [← hsplit, premSum_snoc cache legs oi si, deltaSum_snoc cache legs oi si,
          avgSum_snoc cache legs oi si, nspSum_snoc cache legs oi si,
          nscSum_snoc cache legs oi si] at hrec
        exact hrec

theorem le_foldl_premBound :
    ∀ (l : List OptionData) (b : ℚ), b ≤ l.foldl (fun b o => max b o.premium) b := by
  intro l
  induction l with
  | nil => intro b; exact le_refl b
  | cons y rest ih =>
      intro b
      exact le_trans (le_max_left b y.premium) (ih (max b y.premium))

theorem mem_le_foldl_premBound :
    ∀ (l : List OptionData) (b : ℚ) (x : OptionData), x ∈ l →
      x.premium ≤ l.foldl (fun b o => max b o.premium) b := by
  intro l
  induction l with
  | nil => intro b x hx; exact absurd hx (List.not_mem_nil x)
  | cons y rest ih =>
      intro b x hx
      rcases List.mem_cons.mp hx with rfl | hx
      · exact le_trans (le_max_right b x.premium) (le_foldl_premBound rest _)
      · exact ih _ x hx

theorem le_foldl_deltaBound :
    ∀ (l : List OptionData) (b : ℚ), b ≤ l.foldl (fun b o => max b |o.delta|) b := by
  intro l
  induction l with
  | nil => intro b; exact le_refl b
  | cons y rest ih =>
      intro b
      exact le_trans (le_max_left b _) (ih (max b _))

theorem mem_le_foldl_deltaBound :
    ∀ (l : List OptionData) (b : ℚ) (x : OptionData), x ∈ l →
      |x.delta| ≤ l.foldl (fun b o => max b |o.delta|) b := by
  intro l
  induction l with
  | nil => intro b x hx; exact absurd hx (List.not_mem_nil x)
  | cons y rest ih =>
      intro b x hx
      rcases List.mem_cons.mp hx with rfl | hx
      · exact le_trans (le_max_right b _) (le_foldl_deltaBound rest _)
      · exact ih _ x hx

theorem le_foldl_avgBound :
    ∀ (l : List OptionData) (b : ℚ), b ≤ l.foldl (fun b o => max b |o.average_pnl|) b := by
  intro l
  induction l with
  | nil => intro b; exact le_refl b
  | cons y rest ih =>
      intro b
      exact le_trans (le_max_left b _) (ih (max b _))

theorem mem_le_foldl_avgBound :
    ∀ (l : List OptionData) (b : ℚ) (x : OptionData), x ∈ l →
      |x.average_pnl| ≤ l.foldl (fun b o => max b |o.average_pnl|) b := by
  intro l
  induction l with
  | nil => intro b x hx; exact absurd hx (List.not_mem_nil x)
  | cons y rest ih =>
      intro b x hx
      rcases List.mem_cons.mp hx with rfl | hx
      · exact le_trans (le_max_right b _) (le_foldl_avgBound rest _)
      · exact ih _ x hx

/-- Every member of the exhaustive output is the stored result of a valid
candidate, and conversely every valid candidate's stored result appears. -/
theorem exhaustive_search_mem (cache : OptionsCache) (max_legs : ℕ)
    (mll mlr maxp : ℚ) (og od : ℤ) (ms dmin dmax ll lr : ℚ) (po pol por : Bool)
    (hN : 1 ≤ cache.options.length) (x : ScoredStrategy ℚ) :
    x ∈ exhaustive_search cache max_legs mll mlr maxp og od ms dmin dmax ll lr po pol por
      ↔ ∃ legs m, x = bnb_store_result cache legs m ∧
          bnb_evaluate cache
            (bnb_params cache max_legs mll mlr maxp og od ms dmin dmax ll lr po pol por)
            legs = some m ∧
          ValidCand cache
            (bnb_params cache max_legs mll mlr maxp og od ms dmin dmax ll lr po pol por)
            legs := by
  constructor
  · intro hx
    obtain ⟨k, hk, hx⟩ := List.mem_flatMap.mp hx
    obtain ⟨cm, hcm, hx⟩ := List.mem_flatMap.mp hx
    have hk' := List.mem_range'_1.mp hk
    obtain ⟨c, mask⟩ := cm
    dsimp only at hx
    have hcmem : c ∈ allCombos cache.options.length k ∧ mask ∈ List.range (2 ^ k) := by
      obtain ⟨c', hc', h2⟩ := List.mem_flatMap.mp hcm
      obtain ⟨m', hm', heq⟩ := List.mem_map.mp h2
      injection heq with e1 e2
      rw [← e1, ← e2]
      exact ⟨hc', hm'⟩
    have hc := (canonFrom_mem cache.options.length k 0 c).mp
      (by rw [← allCombos_eq_canonFrom _ _ hN]; exact hcmem.1)
    have hlenz : (c.zip (signsOfMask k mask)).length = k := by
      rw [List.length_zip, hc.1, signsOfMask_length, min_self]
    cases heval : bnb_evaluate cache
        (bnb_params cache max_legs mll mlr maxp og od ms dmin dmax ll lr po pol por)
        (c.zip (signsOfMask k mask)) with
    | none => rw [heval] at hx; exact absurd hx (List.not_mem_nil x)
    | some m0 =>
        rw [heval] at hx
        have hfst : (c.zip (signsOfMask k mask)).map (fun l => l.1) = c :=
          List.map_fst_zip _ _ (by rw [hc.1, signsOfMask_length])
        refine ⟨c.zip (signsOfMask k mask), m0, List.mem_singleton.mp hx, heval,
          by rw [hlenz]; omega, ?_, by rw [hfst]; exact hc.2, ?_, by rw [heval]; rfl⟩
        · rw [hlenz, show (bnb_params cache max_legs mll mlr maxp og od ms dmin dmax
            ll lr po pol por).max_legs = max_legs from rfl]
          omega
        · intro l hl
          exact signsOfMask_mem k mask l.2 (List.of_mem_zip hl).2
  · rintro ⟨legs, m0, rfl, heval, h1len, h2len, hok, hsg, _⟩
    have hml : (bnb_params cache max_legs mll mlr maxp og od ms dmin dmax ll lr
        po pol por).max_legs = max_legs := rfl
    rw [hml] at h2len
    refine List.mem_flatMap.mpr ⟨legs.length,
      List.mem_range'_1.mpr ⟨h1len, by omega⟩, ?_⟩
    refine List.mem_flatMap.mpr
      ⟨(legs.map (fun l => l.1), maskOfSigns (legs.map (fun l => l.2))), ?_, ?_⟩
    · refine List.mem_flatMap.mpr ⟨legs.map (fun l => l.1), ?_,
        List.mem_map.mpr ⟨maskOfSigns (legs.map (fun l => l.2)), ?_, rfl⟩⟩
      · rw [allCombos_eq_canonFrom _ _ hN]
        exact (canonFrom_mem _ _ _ _).mpr ⟨by rw [List.length_map], hok⟩
      · refine List.mem_range.mpr ?_
        have h := maskOfSigns_lt (legs.map (fun l => l.2))
        rw [List.length_map] at h
        exact h
    · dsimp only
      have hsgn : signsOfMask legs.length (maskOfSigns (legs.map (fun l => l.2)))
          = legs.map (fun l => l.2) := by
        have h := signsOfMask_maskOfSigns (legs.map (fun l => l.2)) (fun s hs => by
          obtain ⟨l, hl, rfl⟩ := List.mem_map.mp hs
          exact hsg l hl)
        rw [List.length_map] at h
        exact h
      have hid : legs.map (fun x => (x.1, x.2)) = legs := by simp
      rw [hsgn, zip_map_pair, hid, heval]
      exact List.mem_singleton.mpr rfl

set_option maxHeartbeats 2000000 in
/-- C1 (amended): PROVIDED every instrument's premium is nonnegative (so the
signed premium fold really bounds `|premium|` — `C1_counterexample` shows
the equivalence fails without this), branch-and-bound mode and exhaustive
mode produce exactly the same set of stored valid candidates, for every leg
count from 1 up to the shared cap at once: an element belongs to the
branch-and-bound output iff it belongs to the exhaustive output. Soundness
(`bnb_explore_sound`): everything branch-and-bound emits is the stored
result of an in-range, nondecreasing, `±1`-signed candidate accepted by
`calculate`. Completeness (`bnb_explore_complete`): no pruning test ever
discards a subtree containing such a leaf. The restriction to a fixed leg
count `k` follows by restricting to candidates with `k` legs. -/
theorem C1_amended (cache : OptionsCache) (max_legs : ℕ)
    (mll mlr maxp : ℚ) (og od : ℤ) (ms dmin dmax ll lr : ℚ) (po pol por : Bool)
    (hN : 1 ≤ cache.options.length)
    (hprem : ∀ o ∈ cache.options, 0 ≤ o.premium)
    (x : ScoredStrategy ℚ) :
    x ∈ bnb_search cache max_legs mll mlr maxp og od ms dmin dmax ll lr po pol por
      ↔ x ∈ exhaustive_search cache max_legs mll mlr maxp og od ms dmin dmax
          ll lr po pol por := by
  rw [exhaustive_search_mem cache max_legs mll mlr maxp og od ms dmin dmax ll lr
    po pol por hN x]
  constructor
  · intro hx
    exact bnb_explore_sound cache
      (bnb_params cache max_legs mll mlr maxp og od ms dmin dmax ll lr po pol por)
      max_legs [] 0 0 0 0 0 0 0 0 0 0 (by simp only [List.length_nil, Nat.zero_add]; rfl) rfl
      (fun l hl => absurd hl (List.not_mem_nil l))
      (fun l hl => absurd hl (List.not_mem_nil l)) x hx
  · rintro ⟨legs, m0, rfl, heval, h1len, h2len, hok, hsg, _⟩
    have hbp : (bnb_params cache max_legs mll mlr maxp og od ms dmin dmax ll lr
        po pol por).bound_max_premium
        = cache.options.foldl (fun b o => max b o.premium) 0 := rfl
    have hbd : (bnb_params cache max_legs mll mlr maxp og od ms dmin dmax ll lr
        po pol por).bound_max_delta
        = cache.options.foldl (fun b o => max b |o.delta|) 0 := rfl
    have hba : (bnb_params cache max_legs mll mlr maxp og od ms dmin dmax ll lr
        po pol por).bound_max_avg_pnl
        = cache.options.foldl (fun b o => max b |o.average_pnl|) 0 := rfl
    have hBP : ∀ o ∈ cache.options, o.premium
        ≤ (bnb_params cache max_legs mll mlr maxp og od ms dmin dmax ll lr
            po pol por).bound_max_premium := by
      rw [hbp]
      intro o ho
      exact mem_le_foldl_premBound cache.options 0 o ho
    have hBP0 : (0 : ℚ) ≤ (bnb_params cache max_legs mll mlr maxp og od ms dmin dmax
        ll lr po pol por).bound_max_premium := by
      rw [hbp]
      exact le_foldl_premBound cache.options 0
    have hBD : ∀ o ∈ cache.options, |o.delta|
        ≤ (bnb_params cache max_legs mll mlr maxp og od ms dmin dmax ll lr
            po pol por).bound_max_delta := by
      rw [hbd]
      intro o ho
      exact mem_le_foldl_deltaBound cache.options 0 o ho
    have hBD0 : (0 : ℚ) ≤ (bnb_params cache max_legs mll mlr maxp og od ms dmin dmax
        ll lr po pol por).bound_max_delta := by
      rw [hbd]
      exact le_foldl_deltaBound cache.options 0
    have hBA : ∀ o ∈ cache.options, |o.average_pnl|
        ≤ (bnb_params cache max_legs mll mlr maxp og od ms dmin dmax ll lr
            po pol por).bound_max_avg_pnl := by
      rw [hba]
      intro o ho
      exact mem_le_foldl_avgBound cache.options 0 o ho
    have hBA0 : (0 : ℚ) ≤ (bnb_params cache max_legs mll mlr maxp og od ms dmin dmax
        ll lr po pol por).bound_max_avg_pnl := by
      rw [hba]
      exact le_foldl_avgBound cache.options 0
    have h := bnb_explore_complete cache
      (bnb_params cache max_legs mll mlr maxp og od ms dmin dmax ll lr po pol por)
      hprem hBP hBP0 hBD hBD0 hBA hBA0
      legs [] 0 0 0 0 0 max_legs (by simp only [List.length_nil, Nat.zero_add]; rfl)
      (by simpa using h2len) (by simpa using h1len) hok hsg m0 heval
    exact h

/-- Witness for `C1_amended`: the one-option, zero-premium universe
satisfies both hypotheses, and the equivalence holds there at the zero
record. -/
theorem C1_witness :
    (1 ≤ exCache.options.length ∧ ∀ o ∈ exCache.options, 0 ≤ o.premium) ∧
    (ScoredStrategy.zero ℚ ∈ bnb_search exCache 1 50 50 10 5 5 0 (-1) 1 100 105
        false false false
      ↔ ScoredStrategy.zero ℚ ∈ exhaustive_search exCache 1 50 50 10 5 5 0 (-1) 1
          100 105 false false false) :=
  ⟨⟨Nat.le_refl 1, fun o ho => by rw [List.mem_singleton.mp ho]; exact le_refl 0⟩,
    C1_amended exCache 1 50 50 10 5 5 0 (-1) 1 100 105 false false false
      (Nat.le_refl 1)
      (fun o ho => by rw [List.mem_singleton.mp ho]; exact le_refl 0)
      (ScoredStrategy.zero ℚ)⟩

/-! ### Scoring pipeline (C7)

`StrategyScorer::score_and_rank` (`generation_cpp/strategy_scoring.cpp`
lines 409-532). The stage computes with `double`, `std::log` and
`std::exp`; it is modelled over `ℝ` (exact-real idealisation), so this
section is noncomputable. Over exact reals every value is finite, so the
`std::isfinite` guards (which only filter float overflow artefacts) are
always-true and dropped. The `.cpp` uses the 4-argument `MetricConfig`
shape (name, weight, normalizer, scorer) of
`src/myproject/strategy/cpp/strategy_scoring.hpp` and reads fields from
the union of the two variants' `ScoredStrategy` structs, as does the
parametric `ScoredStrategy` above. -/

inductive ScorerType where
  | HIGHER_BETTER
  | LOWER_BETTER
  | MODERATE_BETTER
  | POSITIVE_BETTER
deriving DecidableEq

inductive NormalizerType where
  | MAX
  | MIN_MAX
  | COUNT
deriving DecidableEq

/-- `struct MetricConfig` as constructed by `create_default_metrics`. -/
structure MetricConfig where
  name : String
  weight : ℝ
  normalizer : NormalizerType
  scorer : ScorerType

/-- `StrategyScorer::create_default_metrics` (lines 20-53): the 15 default
metric configurations; every default weight in the source is `0.0`. -/
def create_default_metrics : List MetricConfig :=
  [ ⟨"delta_neutral", 0, .MAX, .LOWER_BETTER⟩,
    ⟨"gamma_low", 0, .MAX, .LOWER_BETTER⟩,
    ⟨"vega_low", 0, .MAX, .LOWER_BETTER⟩,
    ⟨"theta_positive", 0, .MIN_MAX, .HIGHER_BETTER⟩,
    ⟨"premium", 0, .MAX, .LOWER_BETTER⟩,
    ⟨"implied_vol_moderate", 0, .MIN_MAX, .MODERATE_BETTER⟩,
    ⟨"average_pnl", 0, .MIN_MAX, .HIGHER_BETTER⟩,
    ⟨"roll", 0, .MIN_MAX, .HIGHER_BETTER⟩,
    ⟨"roll_quarterly", 0, .MIN_MAX, .HIGHER_BETTER⟩,
    ⟨"sigma_pnl", 0, .MAX, .LOWER_BETTER⟩,
    ⟨"delta_levrage", 0, .MAX, .HIGHER_BETTER⟩,
    ⟨"avg_pnl_levrage", 0, .MAX, .HIGHER_BETTER⟩,
    ⟨"max_loss", 0, .MAX, .LOWER_BETTER⟩,
    ⟨"tail_penalty", 0, .MIN_MAX, .LOWER_BETTER⟩,
    ⟨"avg_intra_life_pnl", 0, .MIN_MAX, .HIGHER_BETTER⟩ ]

noncomputable section

/-- `StrategyScorer::normalize_weights` (lines 59-70): divide every weight
by the total iff the total is positive. -/
def normalize_weights (metrics : List MetricConfig) : List MetricConfig :=
  let total := (metrics.map (fun m => m.weight)).sum
  if 0 < total then metrics.map (fun m => { m with weight := m.weight / total })
  else metrics

/-- `extract_single_metric_value` (lines 375-407, the file-static helper
`score_and_rank` uses): field dispatch by metric name; unknown names
(including `avg_intra_life_pnl`, which only the unused
`extract_metric_values` handles) yield `0`. -/
def extract_single_metric_value (strat : ScoredStrategy ℝ) (metric_name : String) : ℝ :=
  if metric_name = "delta_neutral" then |strat.total_delta|
  else if metric_name = "gamma_low" then |strat.total_gamma|
  else if metric_name = "vega_low" then |strat.total_vega|
  else if metric_name = "theta_positive" then strat.total_theta
  else if metric_name = "implied_vol_moderate" then strat.avg_implied_volatility
  else if metric_name = "average_pnl" then strat.average_pnl
  else if metric_name = "roll" then strat.roll
  else if metric_name = "roll_quarterly" then strat.roll_quarterly
  else if metric_name = "sigma_pnl" then strat.sigma_pnl
  else if metric_name = "delta_levrage" then strat.delta_levrage
  else if metric_name = "avg_pnl_levrage" then strat.avg_pnl_levrage
  else if metric_name = "premium" then |strat.total_premium|
  else if metric_name = "max_loss" then |strat.max_loss|
  else if metric_name = "tail_penalty" then |strat.tail_penalty|
  else 0

/-- `std::clamp(x, 0.0, 1.0)`. -/
def clampUnit (x : ℝ) : ℝ := min (max x 0) 1

/-- `StrategyScorer::calculate_score` (lines 188-237), minus the
always-true finiteness guard. -/
def calculate_score (value min_val max_val : ℝ) : ScorerType → ℝ
  | .HIGHER_BETTER =>
      if 0 < max_val then clampUnit (value / max_val) else 0
  | .LOWER_BETTER =>
      if min_val < max_val then clampUnit (1 - (value - min_val) / (max_val - min_val))
      else 0
  | .MODERATE_BETTER =>
      if 0 < max_val then max 0 (1 - |value / max_val - 1 / 2| * 2) else 0
  | .POSITIVE_BETTER =>
      if 0 ≤ value ∧ min_val < max_val
      then clampUnit ((value - min_val) / (max_val - min_val)) else 0

/-- Step 1 of `score_and_rank` (lines 430-452) for one metric name: fold
min/max of the extracted values over the pool (the `DBL_MAX` sentinel init
is the fold from the first value; an empty value list leaves the sentinel,
corrected to `(0, 1)`), then the `min == max → max := min + 1` correction. -/
def metricRange (strategies : List (ScoredStrategy ℝ)) (name : String) : ℝ × ℝ :=
  match strategies.map (fun s => extract_single_metric_value s name) with
  | [] => (0, 1)
  | v :: rest =>
      let lo := rest.foldl min v
      let hi := rest.foldl max v
      if lo = hi then (lo, lo + 1) else (lo, hi)

/-- The metrics whose weight is positive: the per-strategy loop (lines
473-486) skips `weight <= 0`. Each entry carries its precomputed
`(min, max)` range. -/
def activeCfgs (cfgs : List (MetricConfig × ℝ × ℝ)) : List (MetricConfig × ℝ × ℝ) :=
  cfgs.filter (fun p => decide (0 < p.1.weight))

/-- `log_sum` of the weighted-geometric-mean loop (lines 469-486):
`Σ wⱼ · log(ε + xⱼ)` over the active metrics, with `ε = 1e-6`. -/
def logSumOf (cfgs : List (MetricConfig × ℝ × ℝ)) (strat : ScoredStrategy ℝ) : ℝ :=
  ((activeCfgs cfgs).map (fun p =>
    p.1.weight * Real.log (1 / 1000000
      + calculate_score (extract_single_metric_value strat p.1.name)
          p.2.1 p.2.2 p.1.scorer))).sum

/-- `total_weight` of the same loop. -/
def totalWeightOf (cfgs : List (MetricConfig × ℝ × ℝ)) : ℝ :=
  ((activeCfgs cfgs).map (fun p => p.1.weight)).sum

/-- `final_score` (line 490): `exp(log_sum)` when positive weight was
accumulated, else `0`. -/
def weightedScore (cfgs : List (MetricConfig × ℝ × ℝ)) (strat : ScoredStrategy ℝ) : ℝ :=
  if 0 < totalWeightOf cfgs then Real.exp (logSumOf cfgs strat) else 0

/-- The current minimum score held in the min-heap (`min_heap.top().first`). -/
def heapMin (scores : ℕ → ℝ) : List ℕ → ℝ
  | [] => 0
  | i :: rest => rest.foldl (fun a j => min a (scores j)) (scores i)

/-- Pop the heap's minimum: drop the first held index attaining the
minimum score. Which of several tied minima `std::priority_queue` holds at
the top is unspecified by the C++ standard; the model fixes
first-in-list. -/
def removeMin (scores : ℕ → ℝ) : List ℕ → List ℕ
  | [] => []
  | i :: rest =>
      if scores i = heapMin scores (i :: rest) then rest
      else i :: removeMin scores rest

/-- One iteration of the top-N maintenance (lines 495-500): push while
below capacity, else replace the minimum iff the new score beats it.
(`top_n = 0` pops an empty heap in the source — undefined behaviour — and
gets a fixed arbitrary behaviour here.) -/
def heapStep (scores : ℕ → ℝ) (top_n : ℕ) (sel : List ℕ) (i : ℕ) : List ℕ :=
  if sel.length < top_n then sel ++ [i]
  else if heapMin scores sel < scores i then removeMin scores sel ++ [i]
  else sel

/-- The indices surviving the scoring loop's min-heap (lines 462-510). -/
def topIndices (scores : ℕ → ℝ) (n top_n : ℕ) : List ℕ :=
  (List.range n).foldl (heapStep scores top_n) []

/-- Insert into a score-descending list (the `std::sort` comparator
`a.score > b.score`, line 520; the unstable sort's tie order is
unspecified, the model fixes insertion order). -/
def insertDesc (scores : ℕ → ℝ) (i : ℕ) : List ℕ → List ℕ
  | [] => [i]
  | j :: rest =>
      if scores j < scores i then i :: j :: rest else j :: insertDesc scores i rest

/-- Final descending sort of the selected indices (lines 513-524). -/
def sortDesc (scores : ℕ → ℝ) (sel : List ℕ) : List ℕ :=
  sel.foldr (insertDesc scores) []

/-- Steps 2-3 of `score_and_rank` given the per-index scores: select the
top `top_n`, order by descending score, write `score` (line 492) and the
1-based `rank` (lines 527-529). -/
def rankedOutput (strategies : List (ScoredStrategy ℝ)) (scores : ℕ → ℝ)
    (top_n : ℕ) : List (ScoredStrategy ℝ) :=
  let ordered := sortDesc scores (topIndices scores strategies.length top_n)
  (List.range ordered.length).map (fun r =>
    { strategies.getD (ordered.getD r 0) default with
        score := scores (ordered.getD r 0), rank := (r : ℤ) + 1 })

/-- `StrategyScorer::score_and_rank` (lines 409-532): empty pool
short-circuit, default metrics on an empty configuration, weight
normalization, per-metric ranges, per-strategy weighted-geometric scores,
top-N selection and descending ranking. -/
def score_and_rank (strategies : List (ScoredStrategy ℝ))
    (metrics : List MetricConfig) (top_n : ℕ) : List (ScoredStrategy ℝ) :=
  if strategies.isEmpty then []
  else
    let ms := normalize_weights
      (if metrics.isEmpty then create_default_metrics else metrics)
    let cfgs := ms.map (fun m => (m, metricRange strategies m.name))
    rankedOutput strategies
      (fun i => weightedScore cfgs (strategies.getD i default)) top_n

/-- Scaling every weight of a configuration by `c` (the transformation the
claim quantifies over). -/
def scaleWeights (c : ℝ) (metrics : List MetricConfig) : List MetricConfig :=
  metrics.map (fun m => { m with weight := c * m.weight })

/-- Forget the `score` field (the one output field allowed to differ
between two runs that rank identically). -/
def stripScore (s : ScoredStrategy ℝ) : ScoredStrategy ℝ := { s with score := 0 }

/-- Scaling one (metric, range) pair's weight: the image of an entry of
`cfgs` when the input configuration was scaled (ranges depend only on the
metric name, which scaling preserves). -/
def scalePair (c : ℝ) (p : MetricConfig × ℝ × ℝ) : MetricConfig × ℝ × ℝ :=
  ({ p.1 with weight := c * p.1.weight }, p.2)

end

theorem scalePair_weight (c : ℝ) (p : MetricConfig × ℝ × ℝ) :
    (scalePair c p).1.weight = c * p.1.weight := rfl

theorem pos_of_scaled (c w : ℝ) (hc : 0 < c) (h : 0 < c * w) : 0 < w := by
  rcases mul_pos_iff.mp h with ⟨_, h2⟩ | ⟨h1, _⟩
  · exact h2
  · exact absurd hc (not_lt.mpr h1.le)

theorem scaleWeights_isEmpty (c : ℝ) (metrics : List MetricConfig) :
    (scaleWeights c metrics).isEmpty = metrics.isEmpty := by
  cases metrics <;> rfl

theorem sum_scaleWeights (c : ℝ) (metrics : List MetricConfig) :
    ((scaleWeights c metrics).map (fun m => m.weight)).sum
      = c * (metrics.map (fun m => m.weight)).sum := by
  rw [scaleWeights, List.map_map]
  exact List.sum_map_mul_left metrics (fun m => m.weight) c

theorem normalize_weights_nonpos (metrics : List MetricConfig)
    (hT : ¬ 0 < (metrics.map (fun m => m.weight)).sum) :
    normalize_weights metrics = metrics := by
  rw [normalize_weights]
  rw [if_neg hT]

/-- Positive-total case: normalizing a `c`-scaled configuration gives the
very same normalized configuration (`(c·w)/(c·T) = w/T`). -/
theorem normalize_weights_scale (c : ℝ) (hc : 0 < c) (metrics : List MetricConfig)
    (hT : 0 < (metrics.map (fun m => m.weight)).sum) :
    normalize_weights (scaleWeights c metrics) = normalize_weights metrics := by
  rw [normalize_weights, normalize_weights]
  rw [sum_scaleWeights, if_pos (mul_pos hc hT), if_pos hT]
  rw [scaleWeights, List.map_map]
  apply List.map_congr_left
  intro m _
  show MetricConfig.mk m.name
      (c * m.weight / (c * (metrics.map (fun x => x.weight)).sum)) m.normalizer m.scorer
    = MetricConfig.mk m.name
      (m.weight / (metrics.map (fun x => x.weight)).sum) m.normalizer m.scorer
  rw [mul_div_mul_left _ _ (ne_of_gt hc)]

theorem activeCfgs_scale (c : ℝ) (hc : 0 < c) :
    ∀ cfgs : List (MetricConfig × ℝ × ℝ),
      activeCfgs (cfgs.map (scalePair c)) = (activeCfgs cfgs).map (scalePair c) := by
  intro cfgs
  induction cfgs with
  | nil => rfl
  | cons p t ih =>
      rw [List.map_cons, activeCfgs, List.filter_cons, activeCfgs, List.filter_cons,
        scalePair_weight]
      by_cases hp : 0 < p.1.weight
      · rw [if_pos (decide_eq_true (show (0 : ℝ) < c * p.1.weight from mul_pos hc hp)),
          if_pos (decide_eq_true hp), List.map_cons]
        exact congrArg (List.cons _) ih
      · rw [if_neg (by rw [decide_eq_false
            (fun h => hp (pos_of_scaled c p.1.weight hc h))]; exact Bool.false_ne_true),
          if_neg (by rw [decide_eq_false hp]; exact Bool.false_ne_true)]
        exact ih

theorem totalWeightOf_scale (c : ℝ) (hc : 0 < c) (cfgs : List (MetricConfig × ℝ × ℝ)) :
    totalWeightOf (cfgs.map (scalePair c)) = c * totalWeightOf cfgs := by
  rw [totalWeightOf, activeCfgs_scale c hc, List.map_map, totalWeightOf]
  exact List.sum_map_mul_left _ (fun p : MetricConfig × ℝ × ℝ => p.1.weight) c

theorem logSumOf_scale (c : ℝ) (hc : 0 < c) (cfgs : List (MetricConfig × ℝ × ℝ))
    (strat : ScoredStrategy ℝ) :
    logSumOf (cfgs.map (scalePair c)) strat = c * logSumOf cfgs strat := by
  rw [logSumOf, activeCfgs_scale c hc, List.map_map, logSumOf]
  have hfun : ∀ p ∈ activeCfgs cfgs,
      ((fun p : MetricConfig × ℝ × ℝ =>
          p.1.weight * Real.log (1 / 1000000
            + calculate_score (extract_single_metric_value strat p.1.name)
                p.2.1 p.2.2 p.1.scorer)) ∘ scalePair c) p
        = c * (p.1.weight * Real.log (1 / 1000000
            + calculate_score (extract_single_metric_value strat p.1.name)
                p.2.1 p.2.2 p.1.scorer)) :=
    fun p _ => mul_assoc c p.1.weight _
  rw [List.map_congr_left hfun, List.sum_map_mul_left]

theorem heapMin_comp_aux (ψ : ℝ → ℝ) (hm : Monotone ψ) (base : ℕ → ℝ) :
    ∀ (rest : List ℕ) (x : ℝ),
      rest.foldl (fun a j => min a (ψ (base j))) (ψ x)
        = ψ (rest.foldl (fun a j => min a (base j)) x) := by
  intro rest
  induction rest with
  | nil => intro x; rfl
  | cons j t ih =>
      intro x
      rw [List.foldl_cons, List.foldl_cons, ← hm.map_min, ih]

theorem heapMin_comp (ψ : ℝ → ℝ) (hm : Monotone ψ) (base : ℕ → ℝ) (i : ℕ)
    (rest : List ℕ) :
    heapMin (fun k => ψ (base k)) (i :: rest) = ψ (heapMin base (i :: rest)) := by
  rw [heapMin, heapMin]
  exact heapMin_comp_aux ψ hm base rest (base i)

theorem removeMin_comp (ψA ψB : ℝ → ℝ) (hA : StrictMono ψA) (hB : StrictMono ψB)
    (base : ℕ → ℝ) :
    ∀ sel : List ℕ,
      removeMin (fun k => ψA (base k)) sel = removeMin (fun k => ψB (base k)) sel := by
  intro sel
  induction sel with
  | nil => rfl
  | cons i rest ih =>
      rw [removeMin, removeMin, heapMin_comp ψA hA.monotone base,
        heapMin_comp ψB hB.monotone base]
      by_cases h : base i = heapMin base (i :: rest)
      · rw [if_pos (congrArg ψA h), if_pos (congrArg ψB h)]
      · rw [if_neg (fun hcon => h (hA.injective hcon)),
          if_neg (fun hcon => h (hB.injective hcon)), ih]

theorem heapStep_comp (ψA ψB : ℝ → ℝ) (hA : StrictMono ψA) (hB : StrictMono ψB)
    (hpos : ∀ x, 0 < ψA x ↔ 0 < ψB x) (base : ℕ → ℝ) (t : ℕ) (sel : List ℕ) (i : ℕ) :
    heapStep (fun k => ψA (base k)) t sel i = heapStep (fun k => ψB (base k)) t sel i := by
  rw [heapStep, heapStep]
  by_cases hlen : sel.length < t
  · rw [if_pos hlen, if_pos hlen]
  · rw [if_neg hlen, if_neg hlen]
    cases sel with
    | nil =>
        rw [heapMin, heapMin]
        by_cases hp : (0 : ℝ) < ψA (base i)
        · rw [if_pos hp, if_pos ((hpos (base i)).mp hp)]
          rfl
        · rw [if_neg hp, if_neg (fun hq => hp ((hpos (base i)).mpr hq))]
    | cons j rest =>
        rw [heapMin_comp ψA hA.monotone base, heapMin_comp ψB hB.monotone base]
        by_cases hcmp : heapMin base (j :: rest) < base i
        · rw [if_pos (hA.lt_iff_lt.mpr hcmp), if_pos (hB.lt_iff_lt.mpr hcmp),
            removeMin_comp ψA ψB hA hB base]
        · rw [if_neg (fun hq => hcmp (hA.lt_iff_lt.mp hq)),
            if_neg (fun hq => hcmp (hB.lt_iff_lt.mp hq))]

theorem topIndices_comp (ψA ψB : ℝ → ℝ) (hA : StrictMono ψA) (hB : StrictMono ψB)
    (hpos : ∀ x, 0 < ψA x ↔ 0 < ψB x) (base : ℕ → ℝ) (n t : ℕ) :
    topIndices (fun k => ψA (base k)) n t = topIndices (fun k => ψB (base k)) n t := by
  rw [topIndices, topIndices]
  have haux : ∀ (l : List ℕ) (sel : List ℕ),
      l.foldl (heapStep (fun k => ψA (base k)) t) sel
        = l.foldl (heapStep (fun k => ψB (base k)) t) sel := by
    intro l
    induction l with
    | nil => intro sel; rfl
    | cons i l' ih =>
        intro sel
        rw [List.foldl_cons, List.foldl_cons,
          heapStep_comp ψA ψB hA hB hpos base, ih]
  exact haux _ []

theorem insertDesc_comp (ψA ψB : ℝ → ℝ) (hA : StrictMono ψA) (hB : StrictMono ψB)
    (base : ℕ → ℝ) (i : ℕ) :
    ∀ sel : List ℕ,
      insertDesc (fun k => ψA (base k)) i sel = insertDesc (fun k => ψB (base k)) i sel := by
  intro sel
  induction sel with
  | nil => rfl
  | cons j rest ih =>
      rw [insertDesc, insertDesc]
      by_cases h : base j < base i
      · rw [if_pos (hA.lt_iff_lt.mpr h), if_pos (hB.lt_iff_lt.mpr h)]
      · rw [if_neg (fun hq => h (hA.lt_iff_lt.mp hq)),
          if_neg (fun hq => h (hB.lt_iff_lt.mp hq)), ih]

theorem sortDesc_cons (scores : ℕ → ℝ) (j : ℕ) (rest : List ℕ) :
    sortDesc scores (j :: rest) = insertDesc scores j (sortDesc scores rest) := rfl

theorem sortDesc_comp (ψA ψB : ℝ → ℝ) (hA : StrictMono ψA) (hB : StrictMono ψB)
    (base : ℕ → ℝ) :
    ∀ sel : List ℕ,
      sortDesc (fun k => ψA (base k)) sel = sortDesc (fun k => ψB (base k)) sel := by
  intro sel
  induction sel with
  | nil => rfl
  | cons j rest ih =>
      rw [sortDesc_cons, sortDesc_cons, ih, insertDesc_comp ψA ψB hA hB base]

/-- Two score assignments that are strictly monotone images of a common
base produce, after forgetting the `score` field, identical ranked
outputs: every branch of the selection and ordering stages observes the
scores only through `<` comparisons and equality tests. -/
theorem rankedOutput_strip_mono (strategies : List (ScoredStrategy ℝ)) (base : ℕ → ℝ)
    (ψA ψB : ℝ → ℝ) (hA : StrictMono ψA) (hB : StrictMono ψB)
    (hpos : ∀ x, 0 < ψA x ↔ 0 < ψB x) (t : ℕ) :
    (rankedOutput strategies (fun i => ψA (base i)) t).map stripScore
      = (rankedOutput strategies (fun i => ψB (base i)) t).map stripScore := by
  rw [rankedOutput, rankedOutput]
  dsimp only
  rw [topIndices_comp ψA ψB hA hB hpos base, sortDesc_comp ψA ψB hA hB base,
    List.map_map, List.map_map]
  apply List.map_congr_left
  intro r _
  rfl

/-- C7: multiplying every weight of the configuration by the same positive
constant changes neither the returned top-N set nor the rank order of
`score_and_rank` (outputs agree after forgetting the `score` field, which
is all the claim asserts — in the unnormalized zero-total branch the raw
scores themselves scale as `exp(c·log_sum)`). With a positive weight
total, normalization makes the scaled and unscaled configurations
literally identical; otherwise the weights enter the geometric mean
linearly, the per-strategy `log_sum` scales by `c`, and `exp` together
with `x ↦ exp(c·x)` are strictly monotone, so every heap and sort
comparison resolves identically. -/
theorem C7_weight_scaling_invariance (strategies : List (ScoredStrategy ℝ))
    (metrics : List MetricConfig) (top_n : ℕ) (c : ℝ) (hc : 0 < c) :
    (score_and_rank strategies (scaleWeights c metrics) top_n).map stripScore
      = (score_and_rank strategies metrics top_n).map stripScore := by
  rw [score_and_rank, score_and_rank]
  by_cases hS : strategies.isEmpty = true
  · rw [if_pos hS, if_pos hS]
  · rw [if_neg hS, if_neg hS]
    by_cases hM : metrics.isEmpty = true
    · simp only [scaleWeights_isEmpty]
      rw [if_pos hM, if_pos hM]
    · simp only [scaleWeights_isEmpty]
      rw [if_neg hM, if_neg hM]
      by_cases hT : 0 < (metrics.map (fun m => m.weight)).sum
      · rw [normalize_weights_scale c hc metrics hT]
      · have hT' : ¬ 0 < ((scaleWeights c metrics).map (fun m => m.weight)).sum := by
          rw [sum_scaleWeights]
          exact fun h => hT (pos_of_scaled c _ hc h)
        rw [normalize_weights_nonpos _ hT', normalize_weights_nonpos _ hT]
        have hcfgs : (scaleWeights c metrics).map
              (fun m => (m, metricRange strategies m.name))
            = (metrics.map (fun m => (m, metricRange strategies m.name))).map
                (scalePair c) := by
          rw [scaleWeights, List.map_map, List.map_map]
          rfl
        rw [hcfgs]
        by_cases htw : 0 < totalWeightOf
            (metrics.map (fun m => (m, metricRange strategies m.name)))
        · have hscoresA : (fun i => weightedScore
              ((metrics.map (fun m => (m, metricRange strategies m.name))).map
                (scalePair c))
              (strategies.getD i default))
              = fun i => (fun x => Real.exp (c * x)) (logSumOf
                  (metrics.map (fun m => (m, metricRange strategies m.name)))
                  (strategies.getD i default)) := by
            funext i
            rw [weightedScore, totalWeightOf_scale c hc, logSumOf_scale c hc,
              if_pos (mul_pos hc htw)]
          have hscoresB : (fun i => weightedScore
              (metrics.map (fun m => (m, metricRange strategies m.name)))
              (strategies.getD i default))
              = fun i => Real.exp (logSumOf
                  (metrics.map (fun m => (m, metricRange strategies m.name)))
                  (strategies.getD i default)) := by
            funext i
            rw [weightedScore, if_pos htw]
          rw [hscoresA, hscoresB]
          exact rankedOutput_strip_mono strategies _ (fun x => Real.exp (c * x)) Real.exp
            (fun a b h => Real.exp_lt_exp.mpr ((mul_lt_mul_left hc).mpr h))
            (fun a b h => Real.exp_lt_exp.mpr h)
            (fun x => iff_of_true (Real.exp_pos _) (Real.exp_pos _)) top_n
        · have hzA : (fun i => weightedScore
              ((metrics.map (fun m => (m, metricRange strategies m.name))).map
                (scalePair c))
              (strategies.getD i default)) = fun _ => (0 : ℝ) := by
            funext i
            rw [weightedScore, totalWeightOf_scale c hc,
              if_neg (fun h => htw (pos_of_scaled c _ hc h))]
          have hzB : (fun i => weightedScore
              (metrics.map (fun m => (m, metricRange strategies m.name)))
              (strategies.getD i default)) = fun _ => (0 : ℝ) := by
            funext i
            rw [weightedScore, if_neg htw]
          rw [hzA, hzB]

/-- Witness for `C7_weight_scaling_invariance` at `c = 2` on the empty
pool with the default (empty) configuration. -/
theorem C7_witness :
    (0 : ℝ) < 2 ∧
    (score_and_rank [] (scaleWeights 2 []) 10).map stripScore
      = (score_and_rank [] [] 10).map stripScore :=
  ⟨by norm_num, C7_weight_scaling_invariance [] [] 10 2 (by norm_num)⟩

/-! ### Error interface of the search entry point (C9) -/

/-- `BNB_MAX_LEGS` (`generation_cpp/bindings.cpp`): the branch-and-bound
recursion buffers are statically sized for 10 legs. -/
def BNB_MAX_LEGS : ℕ := 10

/-- `true` exactly when the entry point raised (`throw` in the source,
modelled as `Except.error`). -/
def raisesError {α : Type} : Except String α → Bool
  | .error _ => true
  | .ok _ => false

/-- Modelled from the spec: the body of `StrategyScorer::multi_score_and_rank`
is declared in `generation_cpp/strategy_scoring.hpp` (lines 158-165) but its
definition is not in `src/`; per the spec's error interface (scoring never
raises — only the five listed conditions do) the scoring stage is taken to
be an arbitrary TOTAL function `multi_score` of the candidate pool, the
parsed weight sets and `top_n`, and the theorem below quantifies over it.
Everything else follows `process_combinations_batch_with_multi_scoring`
(`generation_cpp/bindings.cpp` lines 463-690) guard for guard, in source
order: the uninitialized-cache check (line 483), the leg-count range check
(line 486), weight-set parsing as default-overriding dictionaries (lines
491-505, which cannot fail), the empty-weight-sets check (line 507), the
`BNB_MAX_LEGS` cap check (line 546), the branch-and-bound generation, the
mid-search cancellation check (line 623, `cancel` says whether `stop_flag`
was set), and the scoring stage. Message texts are ASCII renderings of the
source's. -/
def process_combinations_batch_with_multi_scoring {α : Type}
    (cache : OptionsCache) (max_legs : ℤ)
    (mll mlr maxp : ℚ) (og od : ℤ) (ms dmin dmax ll lr : ℚ)
    (po pol por : Bool) (top_n : ℤ)
    (weight_sets_py : List (String → Option ℝ)) (cancel : Bool)
    (multi_score : List (ScoredStrategy ℚ) → List (List MetricConfig) → ℤ → α) :
    Except String α :=
  if ¬ cache.valid = true ∨ cache.options.length = 0 then
    .error ("Cache non initialise. Appelez init_options_cache() d abord.")
  else if max_legs ≤ 0 ∨ (cache.options.length : ℤ) < max_legs then
    .error ("n_legs invalide")
  else
    let weight_sets := weight_sets_py.map (fun ws =>
      create_default_metrics.map (fun mc =>
        match ws mc.name with
        | some w => { mc with weight := w }
        | none => mc))
    if weight_sets.isEmpty then .error ("weight_sets ne peut pas etre vide")
    else if (BNB_MAX_LEGS : ℤ) < max_legs then
      .error ("max_legs > BNB_MAX_LEGS")
    else
      let candidates := bnb_search cache max_legs.toNat mll mlr maxp og od
        ms dmin dmax ll lr po pol por
      if cancel then .error ("Cancelled by user")
      else .ok (multi_score candidates weight_sets top_n)

/-- C9: the entry point raises iff the cache is uninitialized (invalid or
empty), the leg count lies outside `[1, universe size]`, the leg count
exceeds the branch-and-bound cap of 10, the weight-configuration list is
empty, or cancellation was requested mid-search — and for no other reason:
whatever the per-candidate filters reject is silently absent from the pool
handed to the scoring stage, and a run with none of the five conditions
returns a result. -/
theorem C9_error_interface {α : Type} (cache : OptionsCache) (max_legs : ℤ)
    (mll mlr maxp : ℚ) (og od : ℤ) (ms dmin dmax ll lr : ℚ)
    (po pol por : Bool) (top_n : ℤ)
    (weight_sets_py : List (String → Option ℝ)) (cancel : Bool)
    (multi_score : List (ScoredStrategy ℚ) → List (List MetricConfig) → ℤ → α) :
    raisesError (process_combinations_batch_with_multi_scoring cache max_legs
        mll mlr maxp og od ms dmin dmax ll lr po pol por top_n
        weight_sets_py cancel multi_score) = true
      ↔ (cache.valid = false ∨ cache.options.length = 0
          ∨ max_legs < 1 ∨ (cache.options.length : ℤ) < max_legs
          ∨ (10 : ℤ) < max_legs
          ∨ weight_sets_py = [] ∨ cancel = true) := by
  have hpar : (weight_sets_py.map (fun ws =>
      create_default_metrics.map (fun mc =>
        match ws mc.name with
        | some w => { mc with weight := w }
        | none => mc))).isEmpty = true ↔ weight_sets_py = [] := by
    cases weight_sets_py <;> simp
  rw [process_combinations_batch_with_multi_scoring]
  dsimp only
  split_ifs with h1 h2 h3 h4 h5
  · refine iff_of_true rfl ?_
    rcases h1 with h | h
    · exact Or.inl (by simpa using h)
    · exact Or.inr (Or.inl h)
  · refine iff_of_true rfl ?_
    rcases h2 with h | h
    · exact Or.inr (Or.inr (Or.inl (by omega)))
    · exact Or.inr (Or.inr (Or.inr (Or.inl h)))
  · exact iff_of_true rfl (Or.inr (Or.inr (Or.inr (Or.inr (Or.inr
      (Or.inl (hpar.mp h3)))))))
  · refine iff_of_true rfl (Or.inr (Or.inr (Or.inr (Or.inr (Or.inl ?_)))))
    exact h4
  · exact iff_of_true rfl (Or.inr (Or.inr (Or.inr (Or.inr (Or.inr
      (Or.inr h5))))))
  · refine iff_of_false (by rw [raisesError]; exact Bool.false_ne_true) ?_
    push_neg at h1 h2
    rintro (h | h | h | h | h | h | h)
    · exact absurd h1.1 (by simp [h])
    · exact h1.2 h
    · omega
    · exact absurd h (not_lt.mpr h2.2)
    · exact h4 h
    · exact h3 (hpar.mpr h)
    · exact h5 h

end Strategy
